import Mathlib

/-!
Verification development for the ReVPK packed-store tool.

This file gives a shallow embedding of the core data structures and
algorithms of `src/packedstore.cpp` and `src/revpk.cpp`:

* the VPK chunk descriptor / entry block data model and the entry-block
  constructor that splits a source file into 1 MiB fragments;
* the `PackStore` chunk pipeline (optional codec, keep-if-smaller rule,
  content-addressed deduplication against a shared chunk map, append to
  the pack file);
* the per-fragment `UnpackStore` decode logic (skip rule, raw copy,
  ZSTD-marker detection, LZHAM fallback);
* the manifest derivation used when unpacking;
* the multi-locale differencing rule of `UnpackStoreDifferences`;
* the binary directory writer (`VPKDir_t::BuildDirectoryFile` together
  with `CTreeBuilder::BuildTree`/`WriteTree`) and the binary directory
  reader (`VPKDir_t::Init`), with round-trip theorems.

Byte strings are modelled as `List Nat` (each element one byte).
External compression libraries are modelled as opaque function
parameters, following the specification's treatment of codecs as pure
functions.  File-system and threading aspects are abstracted away: the
pack file is a growing byte list, and the worker pools of the tool
apply the functions modelled here to each file/entry independently.
-/

namespace RevpkModel

/-! ## Constants -/

/-- Constants from the repository's `packedstore.h` (the header itself is
not part of the provided sources). Modelled from the spec: §3 gives the
header marker `0x55AA1234`, versions 2/3, and the 1 MiB chunk maximum;
§4.1 gives the 8-byte ZSTD marker `0x5244315F5F4D4150`; §4.3 gives the
fragment separator `0x0000` and terminator `0xFFFF`. -/
def VPK_HEADER_MARKER : Nat := 0x55AA1234

/-- Modelled from the spec: major version of the directory header (§3). -/
def VPK_MAJOR_VERSION : Nat := 2

/-- Modelled from the spec: minor version of the directory header (§3). -/
def VPK_MINOR_VERSION : Nat := 3

/-- Modelled from the spec: maximum chunk length (1 MiB, §3). -/
def VPK_ENTRY_MAX_LEN : Nat := 1048576

/-- Modelled from the spec: marker written between two fragment
descriptors of the same entry (§4.3). -/
def PACKFILEINDEX_SEP : Nat := 0x0

/-- Modelled from the spec: marker written after the last fragment
descriptor of an entry (§4.3). -/
def PACKFILEINDEX_END : Nat := 0xFFFF

/-- Modelled from the spec: the 8-byte little-endian ZSTD chunk marker
(§4.1). -/
def R1D_marker : Nat := 0x5244315F5F4D4150

/-! ## Byte-level encoding helpers -/

/-- Little-endian encoding of `v` into `w` bytes (each `< 256`),
mirroring how the C++ code writes packed integer fields byte by byte. -/
def leBytes : Nat → Nat → List Nat
  | 0, _ => []
  | w + 1, v => v % 256 :: leBytes w (v / 256)

/-- Little-endian decoding of a byte list, mirroring how the C++ code
reads packed integer fields. -/
def leVal : List Nat → Nat
  | [] => 0
  | b :: t => b % 256 + 256 * leVal t

/-- One bit step of the Zlib CRC-32 update (polynomial `0xEDB88320`),
mirroring `crc32_z` used through `compute_crc32`. -/
def crc32Step (crc : Nat) : Nat :=
  if crc % 2 = 1 then (crc / 2) ^^^ 0xEDB88320 else crc / 2

/-- Eight bit steps of the CRC-32 update for one input byte. -/
def crc32Byte (crc b : Nat) : Nat :=
  (crc32Step ∘ crc32Step ∘ crc32Step ∘ crc32Step ∘
   crc32Step ∘ crc32Step ∘ crc32Step ∘ crc32Step) (crc ^^^ b % 256)

/-- Zlib CRC-32 of a byte string (`compute_crc32` in the source). -/
def crc32 (data : List Nat) : Nat :=
  (data.foldl crc32Byte 0xFFFFFFFF) ^^^ 0xFFFFFFFF

/-! ## Data model -/

/-- Chunk descriptor, `VPKChunkDescriptor_t`: `u32` load flags, `u16`
texture flags, `u64` pack offset, `u64` compressed size, `u64`
uncompressed size. -/
structure VPKChunkDescriptor_t where
  m_nLoadFlags : Nat
  m_nTextureFlags : Nat
  m_nPackFileOffset : Nat
  m_nCompressedSize : Nat
  m_nUncompressedSize : Nat
deriving Repr, DecidableEq

/-- Entry block, `VPKEntryBlock_t`: `u32` CRC of the whole file, `u16`
preload size, `u16` pack file index, preload bytes, ordered fragments,
and the entry path (a byte string). -/
structure VPKEntryBlock_t where
  m_nFileCRC : Nat
  m_iPreloadSize : Nat
  m_iPackFileIndex : Nat
  m_PreloadData : List Nat
  m_Fragments : List VPKChunkDescriptor_t
  m_EntryPath : List Nat
deriving Repr, DecidableEq

/-- Manifest record, `VPKKeyValues_t`. -/
structure VPKKeyValues_t where
  m_EntryPath : List Nat
  m_iPreloadSize : Nat
  m_nLoadFlags : Nat
  m_nTextureFlags : Nat
  m_bUseCompression : Bool
  m_bDeduplicate : Bool
deriving Repr, DecidableEq

/-- Fuel-driven helper for `chunkSizes`; each loop iteration removes at
least one byte, so fuel equal to the byte count always suffices. -/
def chunkSizesAux : Nat → Nat → List Nat
  | _, 0 => []
  | 0, _ + 1 => []
  | fuel + 1, n + 1 =>
      min VPK_ENTRY_MAX_LEN (n + 1) ::
        chunkSizesAux fuel (n + 1 - min VPK_ENTRY_MAX_LEN (n + 1))

/-- Sizes of the 1 MiB chunks a byte count is split into: full
`VPK_ENTRY_MAX_LEN` chunks followed by a shorter tail, mirroring the
`while (totalLeft > 0)` loop of the `VPKEntryBlock_t` constructor. -/
def chunkSizes (n : Nat) : List Nat := chunkSizesAux n n

/-- The `VPKEntryBlock_t` packing constructor: records preload data when
`0 < preload ≤ len`, computes the file CRC, and splits the remaining
`len - preload` bytes into chunk descriptors whose compressed and
uncompressed sizes both start at the chunk size and whose pack offset
starts at 0. -/
def VPKEntryBlock_mk (data : List Nat) (iPreloadSize iPackFileIndex : Nat)
    (nLoadFlags nTextureFlags : Nat) (entryPath : List Nat) :
    VPKEntryBlock_t :=
  let nLen := data.length
  { m_nFileCRC := crc32 data
    m_iPreloadSize := iPreloadSize
    m_iPackFileIndex := iPackFileIndex
    m_PreloadData :=
      if 0 < iPreloadSize ∧ iPreloadSize ≤ nLen then data.take iPreloadSize
      else []
    m_Fragments :=
      (chunkSizes (if nLen > iPreloadSize then nLen - iPreloadSize else 0)).map
        (fun c =>
          { m_nLoadFlags := nLoadFlags
            m_nTextureFlags := nTextureFlags
            m_nPackFileOffset := 0
            m_nCompressedSize := c
            m_nUncompressedSize := c })
    m_EntryPath := entryPath }

/-! ## The PackStore chunk pipeline -/

/-- Pack-time shared state: the fingerprint map from post-codec chunk
bytes to the stored descriptor, and the bytes of the pack file written
so far.  The fingerprint (`compute_sha1_hex`, an XXH64 hex string in
the source) is an opaque deterministic function of the chunk bytes per
spec §4.2; it is modelled by keying the map on the bytes themselves. -/
structure PackState where
  hmap : List (List Nat × VPKChunkDescriptor_t)
  packData : List Nat
deriving Repr, DecidableEq

/-- Lookup in the fingerprint map (`m_ChunkHashMap.find`). -/
def lookupChunk (m : List (List Nat × VPKChunkDescriptor_t)) (k : List Nat) :
    Option VPKChunkDescriptor_t :=
  (m.find? (fun p => decide (p.1 = k))).map Prod.snd

/-- Post-codec bytes of one raw chunk.  Mirrors the compression attempt
in `PackStore`: when compression is enabled, the codec is invoked (for
ZSTD the returned bytes already start with the 8-byte marker, as the
source writes the marker into `compBuf` before compressing) and its
output is kept only when strictly smaller than the raw chunk; on codec
failure or a non-shrinking result the raw bytes are used. -/
def finalBytes (codec : List Nat → Option (List Nat)) (useComp : Bool)
    (raw : List Nat) : List Nat :=
  if useComp then
    match codec raw with
    | some out => if out.length < raw.length then out else raw
    | none => raw
  else raw

/-- The dedup-or-append step of `PackStore`: a map hit returns the stored
descriptor unchanged; otherwise the descriptor is completed with the
current write position and the final size, the bytes are appended to
the pack file, and the descriptor is recorded in the map. -/
def dedupStep (st : PackState) (fb : List Nat)
    (tmpl : VPKChunkDescriptor_t) : PackState × VPKChunkDescriptor_t :=
  match lookupChunk st.hmap fb with
  | some d => (st, d)
  | none =>
      let d := { tmpl with
                  m_nPackFileOffset := st.packData.length
                  m_nCompressedSize := fb.length }
      ({ hmap := (fb, d) :: st.hmap, packData := st.packData ++ fb }, d)

/-- Process the fragments of one entry block against the file data,
mirroring the per-chunk loop of `PackStore`.  Returns the final state,
the recorded descriptors in order, and a chronological log of
(final bytes, recorded descriptor) pairs.  As in the source, the
memory offset advances by the *recorded* descriptor's uncompressed
size (`memoryOffset += frag.m_nUncompressedSize` runs after a dedup
hit may have replaced `frag`). -/
def processChunks (codec : List Nat → Option (List Nat)) (useComp : Bool) :
    PackState → List VPKChunkDescriptor_t → List Nat →
    PackState × List VPKChunkDescriptor_t ×
      List (List Nat × VPKChunkDescriptor_t)
  | st, [], _ => (st, [], [])
  | st, f :: fs, data =>
      let raw := data.take f.m_nUncompressedSize
      let fb := finalBytes codec useComp raw
      let r1 := dedupStep st fb f
      let r2 := processChunks codec useComp r1.1 fs
        (data.drop r1.2.m_nUncompressedSize)
      (r2.1, r1.2 :: r2.2.1, (fb, r1.2) :: r2.2.2)

/-- Pack one source file: build the entry block, then run its fragments
through the chunk pipeline. -/
def packFile (codec : List Nat → Option (List Nat)) (st : PackState)
    (data : List Nat) (kv : VPKKeyValues_t) :
    PackState × VPKEntryBlock_t × List (List Nat × VPKChunkDescriptor_t) :=
  let blk := VPKEntryBlock_mk data kv.m_iPreloadSize 0
    kv.m_nLoadFlags kv.m_nTextureFlags kv.m_EntryPath
  let r := processChunks codec kv.m_bUseCompression st blk.m_Fragments data
  (r.1, { blk with m_Fragments := r.2.1 }, r.2.2)

/-- The file loop of `PackStore`: empty source files (`len <= 0`) are
skipped with a warning and contribute no entry block; other files are
packed in manifest order.  Returns the final state, the entry blocks,
and the chronological chunk log. -/
def runPackStore (codec : List Nat → Option (List Nat)) :
    PackState → List (List Nat × VPKKeyValues_t) →
    PackState × List VPKEntryBlock_t ×
      List (List Nat × VPKChunkDescriptor_t)
  | st, [] => (st, [], [])
  | st, (data, kv) :: rest =>
      if data.length = 0 then runPackStore codec st rest
      else
        let r1 := packFile codec st data kv
        let r2 := runPackStore codec r1.1 rest
        (r2.1, r1.2.1 :: r2.2.1, r1.2.2 ++ r2.2.2)

/-- The chronological (final bytes, recorded descriptor) log of one
whole `PackStore` run started from a fresh builder (empty fingerprint
map, empty pack file). -/
def packLog (codec : List Nat → Option (List Nat))
    (files : List (List Nat × VPKKeyValues_t)) :
    List (List Nat × VPKChunkDescriptor_t) :=
  (runPackStore codec ⟨[], []⟩ files).2.2

/-- The empty-file branch of `DoPackDeltaCommon`'s `processFile`: an
entry block holding one all-zero chunk descriptor carrying the manifest
flags (`revpk.cpp` lines 771-789).  The file CRC field is left at its
default-initialized value, modelled as 0. -/
def deltaCommonEmptyEntry (kv : VPKKeyValues_t) : VPKEntryBlock_t :=
  { m_nFileCRC := 0
    m_iPreloadSize := kv.m_iPreloadSize
    m_iPackFileIndex := 0x1337
    m_PreloadData := []
    m_Fragments :=
      [ { m_nLoadFlags := kv.m_nLoadFlags
          m_nTextureFlags := kv.m_nTextureFlags
          m_nPackFileOffset := 0
          m_nCompressedSize := 0
          m_nUncompressedSize := 0 } ]
    m_EntryPath := kv.m_EntryPath }

/-! ## The UnpackStore fragment decoder -/

/-- The 8 bytes of the ZSTD marker as they appear at the start of a
marker-prefixed chunk. -/
def R1D_markerBytes : List Nat := leBytes 8 R1D_marker

/-- Decode one fragment during unpacking, mirroring the per-fragment
loop of `UnpackStore` (and the identical loop of
`UnpackStoreDifferences`): a fragment with offset 0 and compressed size
0 is skipped; `compressed_size` bytes are read at `pack_offset`; equal
compressed and uncompressed sizes mean a raw copy; otherwise a chunk of
at least 8 bytes starting with the ZSTD marker is ZSTD-decompressed
after the marker, and anything else is LZHAM-decompressed.  A failing
decompressor contributes no bytes. -/
def unpackFragment (zstdDecomp lzhamDecomp : List Nat → Option (List Nat))
    (pack : List Nat) (frag : VPKChunkDescriptor_t) : List Nat :=
  if frag.m_nPackFileOffset = 0 ∧ frag.m_nCompressedSize = 0 then []
  else
    let src := (pack.drop frag.m_nPackFileOffset).take frag.m_nCompressedSize
    if frag.m_nCompressedSize = frag.m_nUncompressedSize then src
    else if 8 ≤ frag.m_nCompressedSize ∧ src.take 8 = R1D_markerBytes then
      match zstdDecomp (src.drop 8) with
      | some out => out
      | none => []
    else
      match lzhamDecomp src with
      | some out => out
      | none => []

/-! ## Manifest derivation during unpack -/

/-- The `useCompression` field of the manifest rebuilt by `UnpackStore`:
true when some fragment has a strictly smaller compressed size. -/
def manifestUseCompression (blk : VPKEntryBlock_t) : Bool :=
  blk.m_Fragments.any
    (fun f => decide (f.m_nCompressedSize < f.m_nUncompressedSize))

/-- The `loadFlags` field of the rebuilt manifest: taken from the first
fragment, 3 when the entry has no fragments. -/
def manifestLoadFlags (blk : VPKEntryBlock_t) : Nat :=
  match blk.m_Fragments with
  | [] => 3
  | f :: _ => f.m_nLoadFlags

/-- The `textureFlags` field of the rebuilt manifest: taken from the
first fragment, 0 when the entry has no fragments. -/
def manifestTextureFlags (blk : VPKEntryBlock_t) : Nat :=
  match blk.m_Fragments with
  | [] => 0
  | f :: _ => f.m_nTextureFlags

/-! ## Multi-locale differencing (UnpackStoreDifferences) -/

/-- `operator[]` assignment on the fallback CRC map: overwrite the value
when the key is present, append otherwise. -/
def crcMapInsert : List (List Nat × Nat) → List Nat → Nat →
    List (List Nat × Nat)
  | [], k, v => [(k, v)]
  | (k', v') :: t, k, v =>
      if k' = k then (k, v) :: t else (k', v') :: crcMapInsert t k v

/-- Build the entry-path → CRC map of the fallback directory
(`fallbackCrcMap` in the source); a later entry with the same path
overwrites an earlier one. -/
def buildFallbackCrcMap (fallback : List VPKEntryBlock_t) :
    List (List Nat × Nat) :=
  fallback.foldl (fun m b => crcMapInsert m b.m_EntryPath b.m_nFileCRC) []

/-- Lookup in the fallback CRC map. -/
def crcLookup (m : List (List Nat × Nat)) (k : List Nat) : Option Nat :=
  (m.find? (fun p => decide (p.1 = k))).map Prod.snd

/-- The skip condition of `UnpackStoreDifferences`: the fallback map has
this entry path and the mapped CRC equals the entry's CRC. -/
def sameAsFallback (fallback : List VPKEntryBlock_t)
    (blk : VPKEntryBlock_t) : Bool :=
  match crcLookup (buildFallbackCrcMap fallback) blk.m_EntryPath with
  | some c => decide (c = blk.m_nFileCRC)
  | none => false

/-- The entries of the locale directory that `UnpackStoreDifferences`
extracts under the locale output path: everything not skipped. -/
def unpackDifferencesExtracted (fallback locale : List VPKEntryBlock_t) :
    List VPKEntryBlock_t :=
  locale.filter (fun b => ! sameAsFallback fallback b)

/-! ## Directory tree building (CTreeBuilder) -/

/-- Lexicographic byte-string comparison, mirroring the `std::string`
ordering used by the `std::map` based file tree. -/
def bytesLt : List Nat → List Nat → Bool
  | [], [] => false
  | [], _ :: _ => true
  | _ :: _, [] => false
  | a :: as, b :: bs =>
      if a < b then true else if b < a then false else bytesLt as bs

/-- Index of the last list element satisfying `f`
(`std::string::rfind` / `find_last_of`). -/
def findLastIdx (p : List Nat) (f : Nat → Bool) : Option Nat :=
  match p.reverse.findIdx? f with
  | some i => some (p.length - 1 - i)
  | none => none

/-- The (extension, path, filename) split of an entry path. -/
structure EntrySplit where
  ext : List Nat
  path : List Nat
  fname : List Nat
deriving Repr, DecidableEq

/-- The split rule of `CTreeBuilder::BuildTree`: the last `'.'` starts
the extension, the last `'/'` ends the path, an empty path becomes
`" "`.  When the last dot lies before the last slash, the C++
`substr(slashPos+1, pos-(slashPos+1))` underflows its length argument
and yields the rest of the string. -/
def splitEntry (p : List Nat) : EntrySplit :=
  let posDot := findLastIdx p (fun c => decide (c = 46))
  let ext := match posDot with
    | none => []
    | some d => p.drop (d + 1)
  let posSlash := findLastIdx p (fun c => decide (c = 47))
  match posSlash with
  | some s =>
      let path := p.take s
      let fname := match posDot with
        | some d =>
            if s + 1 ≤ d then (p.drop (s + 1)).take (d - (s + 1))
            else p.drop (s + 1)
        | none => p.drop (s + 1)
      { ext := ext
        path := if path = [] then [32] else path
        fname := fname }
  | none =>
      let fname := match posDot with
        | some d => p.take d
        | none => p
      { ext := ext, path := [32], fname := fname }

/-- The filename recomputation of `CTreeBuilder::WriteTree` (which,
unlike `BuildTree`, also recognizes `'\\'` as a path separator). -/
def writeFilename (p : List Nat) : List Nat :=
  let posSlash := findLastIdx p (fun c => decide (c = 47 ∨ c = 92))
  let posDot := findLastIdx p (fun c => decide (c = 46))
  match posSlash with
  | none =>
      match posDot with
      | none => p
      | some d => p.take d
  | some s =>
      match posDot with
      | none => p.drop (s + 1)
      | some d =>
          if d < s + 1 then p.drop (s + 1)
          else (p.drop (s + 1)).take (d - (s + 1))

/-- The entry-path reconstruction of `VPKDir_t::Init`: a `" "` path
means root; a nonempty path not ending in `'/'` gets one appended; the
filename follows; a nonempty extension is appended after `'.'`. -/
def joinEntryPath (path fname ext : List Nat) : List Nat :=
  let p0 := if path = [32] then [] else path
  let p1 := if p0 ≠ [] ∧ p0.getLast? ≠ some 47 then p0 ++ [47] else p0
  let e := p1 ++ fname
  if ext ≠ [] then e ++ [46] ++ ext else e

/-- Inner level of the file tree: path → blocks, sorted by path. -/
abbrev PathMap := List (List Nat × List VPKEntryBlock_t)

/-- The file tree: extension → path → blocks, sorted by extension.
The container type lives in the missing `packedstore.h`; modelled from
the spec as an ordered map (`std::map`), matching the byte-exact
serialization order the spec and the tree-writing code rely on. -/
abbrev FileTree := List (List Nat × PathMap)

/-- Sorted association-list insertion with a merge function, mirroring
`std::map::operator[]`: new keys are placed at their sorted position,
existing keys have their value updated. -/
def assocInsert {β : Type} (mk : β) (upd : β → β) (k : List Nat) :
    List (List Nat × β) → List (List Nat × β)
  | [] => [(k, mk)]
  | (k', v) :: t =>
      if bytesLt k k' then (k, mk) :: (k', v) :: t
      else if k = k' then (k', upd v) :: t
      else (k', v) :: assocInsert mk upd k t

/-- Insert a block under its path into a path map
(`m_FileTree[ext][path].push_back(blk)`, inner level). -/
def pathMapInsert (path : List Nat) (b : VPKEntryBlock_t) (m : PathMap) :
    PathMap :=
  assocInsert [b] (fun v => v ++ [b]) path m

/-- Insert a block under its extension and path into the file tree. -/
def treeInsert (ext path : List Nat) (b : VPKEntryBlock_t) (t : FileTree) :
    FileTree :=
  assocInsert (pathMapInsert path b []) (pathMapInsert path b) ext t

/-- `CTreeBuilder::BuildTree`: split every entry path and insert the
block into the two-level tree. -/
def buildTree (entries : List VPKEntryBlock_t) : FileTree :=
  entries.foldl
    (fun t e =>
      let s := splitEntry e.m_EntryPath
      treeInsert s.ext s.path e t) []

/-! ## Directory serialization (WriteTree / BuildDirectoryFile) -/

/-- The 30 bytes of one chunk descriptor. -/
def encodeDesc (d : VPKChunkDescriptor_t) : List Nat :=
  leBytes 4 d.m_nLoadFlags ++ leBytes 2 d.m_nTextureFlags ++
  leBytes 8 d.m_nPackFileOffset ++ leBytes 8 d.m_nCompressedSize ++
  leBytes 8 d.m_nUncompressedSize

/-- A fragment list with its 2-byte markers: `PACKFILEINDEX_SEP`
between descriptors, `PACKFILEINDEX_END` after the last.  An entry with
no fragments writes nothing (the C++ loop body never runs). -/
def encodeDescList : List VPKChunkDescriptor_t → List Nat
  | [] => []
  | [d] => encodeDesc d ++ leBytes 2 PACKFILEINDEX_END
  | d :: d' :: ds =>
      encodeDesc d ++ leBytes 2 PACKFILEINDEX_SEP ++ encodeDescList (d' :: ds)

/-- One entry under a (extension, path) pair: filename, NUL, CRC,
preload size, pack index, fragment descriptors.  Note that `WriteTree`
does not write the preload bytes themselves. -/
def encodeBlock (b : VPKEntryBlock_t) : List Nat :=
  writeFilename b.m_EntryPath ++ [0] ++
  leBytes 4 b.m_nFileCRC ++ leBytes 2 b.m_iPreloadSize ++
  leBytes 2 b.m_iPackFileIndex ++ encodeDescList b.m_Fragments

/-- One path group: the path string, NUL, its entries, and the one-byte
end-of-filenames terminator. -/
def encodePathGroup (g : List Nat × List VPKEntryBlock_t) : List Nat :=
  g.1 ++ [0] ++ (g.2.map encodeBlock).flatten ++ [0]

/-- One extension group: the extension string, NUL, its path groups,
and the one-byte end-of-paths terminator. -/
def encodeExtGroup (g : List Nat × PathMap) : List Nat :=
  g.1 ++ [0] ++ (g.2.map encodePathGroup).flatten ++ [0]

/-- `CTreeBuilder::WriteTree`: all extension groups followed by the
end-of-extensions terminator byte. -/
def writeTree (t : FileTree) : List Nat :=
  (t.map encodeExtGroup).flatten ++ [0]

/-- The 16-byte directory header: marker, major, minor, directory size,
signature size (always 0 on write). -/
def headerBytes (dirSize : Nat) : List Nat :=
  leBytes 4 VPK_HEADER_MARKER ++ leBytes 2 VPK_MAJOR_VERSION ++
  leBytes 2 VPK_MINOR_VERSION ++ leBytes 4 dirSize ++ leBytes 4 0

/-- `VPKDir_t::BuildDirectoryFile`: header (with the directory size
patched in after the fact), the serialized tree, and one extra
terminator byte; the directory size counts everything after the
header. -/
def serializeDir (entries : List VPKEntryBlock_t) : List Nat :=
  let body := writeTree (buildTree entries) ++ [0]
  headerBytes body.length ++ body

/-! ## Directory parsing (VPKDir_t::Init) -/

/-- `readNullTerminatedString`: characters up to the first NUL (or the
end of input), consuming the NUL when present. -/
def readStr (bs : List Nat) : List Nat × List Nat :=
  (bs.takeWhile (fun c => decide (c ≠ 0)),
   (bs.dropWhile (fun c => decide (c ≠ 0))).drop 1)

/-- Decode the 30 bytes of a chunk descriptor. -/
def decodeDesc (bs : List Nat) : VPKChunkDescriptor_t :=
  { m_nLoadFlags := leVal (bs.take 4)
    m_nTextureFlags := leVal ((bs.drop 4).take 2)
    m_nPackFileOffset := leVal ((bs.drop 6).take 8)
    m_nCompressedSize := leVal ((bs.drop 14).take 8)
    m_nUncompressedSize := leVal ((bs.drop 22).take 8) }

/-- The descriptor loop of `Init`: read descriptors until the 2-byte
marker equals `PACKFILEINDEX_END`.  Running out of bytes makes the C++
loop spin forever on failed reads; this is modelled as a parse
failure. -/
def readDescs : Nat → List Nat →
    Option (List VPKChunkDescriptor_t × List Nat)
  | 0, _ => none
  | fuel + 1, bs =>
      if bs.length < 32 then none
      else
        let d := decodeDesc (bs.take 30)
        let marker := leVal ((bs.drop 30).take 2)
        let rest := bs.drop 32
        if marker = PACKFILEINDEX_END then some ([d], rest)
        else
          match readDescs fuel rest with
          | some r => some (d :: r.1, r.2)
          | none => none

/-- The filename loop of `Init`: read filenames until an empty string,
building an entry block from the fixed fields, the preload bytes and
the descriptor list for each. -/
def readBlocks : Nat → List Nat → List Nat → List Nat →
    Option (List VPKEntryBlock_t × List Nat)
  | 0, _, _, _ => none
  | fuel + 1, ext, path, bs =>
      let r1 := readStr bs
      if r1.1 = [] then some ([], r1.2)
      else if r1.2.length < 8 then none
      else
        let crc := leVal (r1.2.take 4)
        let pre := leVal ((r1.2.drop 4).take 2)
        let idx := leVal ((r1.2.drop 6).take 2)
        let r2 := r1.2.drop 8
        if r2.length < pre then none
        else
          match readDescs fuel (r2.drop pre) with
          | none => none
          | some r4 =>
              let blk : VPKEntryBlock_t :=
                { m_nFileCRC := crc
                  m_iPreloadSize := pre
                  m_iPackFileIndex := idx
                  m_PreloadData := r2.take pre
                  m_Fragments := r4.1
                  m_EntryPath := joinEntryPath path r1.1 ext }
              match readBlocks fuel ext path r4.2 with
              | none => none
              | some r5 => some (blk :: r5.1, r5.2)

/-- The path loop of `Init`: read paths until an empty string. -/
def readPaths : Nat → List Nat → List Nat →
    Option (List VPKEntryBlock_t × List Nat)
  | 0, _, _ => none
  | fuel + 1, ext, bs =>
      let r1 := readStr bs
      if r1.1 = [] then some ([], r1.2)
      else
        match readBlocks fuel ext r1.1 r1.2 with
        | none => none
        | some r2 =>
            match readPaths fuel ext r2.2 with
            | none => none
            | some r3 => some (r2.1 ++ r3.1, r3.2)

/-- The extension loop of `Init`: read extensions until an empty
string. -/
def readExts : Nat → List Nat → Option (List VPKEntryBlock_t × List Nat)
  | 0, _ => none
  | fuel + 1, bs =>
      let r1 := readStr bs
      if r1.1 = [] then some ([], r1.2)
      else
        match readPaths fuel r1.1 r1.2 with
        | none => none
        | some r2 =>
            match readExts fuel r2.2 with
            | none => none
            | some r3 => some (r2.1 ++ r3.1, r3.2)

/-- `VPKDir_t::Init`: validate the marker and version fields of the
header, then parse the tree that follows the 16-byte header, ignoring
any bytes after the end-of-extensions terminator.  `none` models a
failed parse (`m_bInitFailed`, or the divergence of the C++ loops on
truncated fixed-width fields). -/
def parseVPKDir (bs : List Nat) : Option (List VPKEntryBlock_t) :=
  if bs.length < 8 then none
  else if leVal (bs.take 4) = VPK_HEADER_MARKER ∧
          leVal ((bs.drop 4).take 2) = VPK_MAJOR_VERSION ∧
          leVal ((bs.drop 6).take 2) = VPK_MINOR_VERSION then
    match readExts (bs.length + 1) (bs.drop 16) with
    | some r => some r.1
    | none => none
  else none

/-! ## Well-formedness for the round trip -/

/-- Field reduction applied by a parse/re-encode cycle: every numeric
field comes back reduced modulo its encoded width. -/
def reduceDesc (d : VPKChunkDescriptor_t) : VPKChunkDescriptor_t :=
  { m_nLoadFlags := d.m_nLoadFlags % 2 ^ 32
    m_nTextureFlags := d.m_nTextureFlags % 2 ^ 16
    m_nPackFileOffset := d.m_nPackFileOffset % 2 ^ 64
    m_nCompressedSize := d.m_nCompressedSize % 2 ^ 64
    m_nUncompressedSize := d.m_nUncompressedSize % 2 ^ 64 }

/-- The block the parser reconstructs from one serialized entry that
was written under keys `ext` and `path`. -/
def parsedBlock (ext path : List Nat) (b : VPKEntryBlock_t) :
    VPKEntryBlock_t :=
  { m_nFileCRC := b.m_nFileCRC % 2 ^ 32
    m_iPreloadSize := b.m_iPreloadSize % 2 ^ 16
    m_iPackFileIndex := b.m_iPackFileIndex % 2 ^ 16
    m_PreloadData := []
    m_Fragments := b.m_Fragments.map reduceDesc
    m_EntryPath := joinEntryPath path (writeFilename b.m_EntryPath) ext }

/-- Well-formed entry for the directory round trip: no preload data
(the writer drops preload bytes that the reader would consume), at
least one fragment (a fragmentless entry writes no end marker), a
NUL-free and backslash-free path with nonempty extension and filename,
and a path that the reader's reconstruction reproduces verbatim. -/
def wfEntry (b : VPKEntryBlock_t) : Prop :=
  b.m_iPreloadSize = 0 ∧ b.m_Fragments ≠ [] ∧
  ¬ 0 ∈ b.m_EntryPath ∧ ¬ 92 ∈ b.m_EntryPath ∧
  (splitEntry b.m_EntryPath).ext ≠ [] ∧
  (splitEntry b.m_EntryPath).fname ≠ [] ∧
  joinEntryPath (splitEntry b.m_EntryPath).path
    (splitEntry b.m_EntryPath).fname
    (splitEntry b.m_EntryPath).ext = b.m_EntryPath

instance (b : VPKEntryBlock_t) : Decidable (wfEntry b) := by
  unfold wfEntry; infer_instance

/-- All blocks of a file tree, in serialization order. -/
def flattenTree (t : FileTree) : List VPKEntryBlock_t :=
  (t.map (fun g => (g.2.map Prod.snd).flatten)).flatten

/-- The tree of parsed blocks corresponding to a written tree: every
block is replaced by what the reader reconstructs from its serialized
form under its (extension, path) keys. -/
def parsedTree (t : FileTree) : FileTree :=
  t.map (fun g =>
    (g.1, g.2.map (fun pg => (pg.1, pg.2.map (parsedBlock g.1 pg.1)))))

/-- The value accumulated for one key after inserting a nonempty run of
blocks with that key (`mkF` for the first, `updF` for the rest). -/
def groupValue {β : Type} (emp : β) (mkF : VPKEntryBlock_t → β)
    (updF : VPKEntryBlock_t → β → β) : List VPKEntryBlock_t → β
  | [] => emp
  | b :: bs => bs.foldl (fun v x => updF x v) (mkF b)

/-- The per-block conditions under which the reader inverts the
writer: no preload bytes (the writer never emits them), at least one
fragment (a fragmentless entry writes no end marker), and a nonempty
NUL-free written filename. -/
def goodBlock (b : VPKEntryBlock_t) : Prop :=
  b.m_iPreloadSize = 0 ∧ b.m_Fragments ≠ [] ∧
  writeFilename b.m_EntryPath ≠ [] ∧ ¬ 0 ∈ writeFilename b.m_EntryPath

/-! ## Byte-encoding lemmas -/

theorem leBytes_length (w v : Nat) : (leBytes w v).length = w := by
  induction w generalizing v with
  | zero => rfl
  | succ w ih => simp [leBytes, ih]

theorem leVal_leBytes (w v : Nat) : leVal (leBytes w v) = v % 256 ^ w := by
  induction w generalizing v with
  | zero => simp [leBytes, leVal, Nat.mod_one]
  | succ w ih =>
      simp only [leBytes, leVal, ih, pow_succ']
      have h1 : v % (256 * 256 ^ w) % 256 = v % 256 :=
        Nat.mod_mod_of_dvd v ⟨256 ^ w, rfl⟩
      have h2 : v % (256 * 256 ^ w) / 256 = v / 256 % 256 ^ w :=
        Nat.mod_mul_right_div_self v 256 (256 ^ w)
      have h3 := Nat.div_add_mod (v % (256 * 256 ^ w)) 256
      omega

theorem leBytes_mod (w v : Nat) : leBytes w (v % 256 ^ w) = leBytes w v := by
  induction w generalizing v with
  | zero => rfl
  | succ w ih =>
      have h1 : v % 256 ^ (w + 1) % 256 = v % 256 :=
        Nat.mod_mod_of_dvd v ⟨256 ^ w, by rw [pow_succ']⟩
      have h2 : v % 256 ^ (w + 1) / 256 = v / 256 % 256 ^ w := by
        rw [pow_succ']; exact Nat.mod_mul_right_div_self v 256 (256 ^ w)
      simp only [leBytes, h1, h2, ih]

/-! ## Chunk-splitting lemmas -/

theorem chunkSizesAux_fuel (fuel : Nat) :
    ∀ n, n ≤ fuel → chunkSizesAux fuel n = chunkSizesAux n n := by
  induction fuel using Nat.strong_induction_on with
  | _ fuel ih =>
      intro n hn
      match fuel, n with
      | f, 0 =>
          cases f <;> rfl
      | fuel + 1, m + 1 =>
          have hc : 0 < min VPK_ENTRY_MAX_LEN (m + 1) := by
            simp [Nat.lt_min, VPK_ENTRY_MAX_LEN]
          have hsub : m + 1 - min VPK_ENTRY_MAX_LEN (m + 1) ≤ m := by omega
          simp only [chunkSizesAux]
          rw [ih fuel (Nat.lt_succ_self fuel) _ (le_trans hsub (by omega)),
            ih m (by omega) _ hsub]

theorem chunkSizes_zero : chunkSizes 0 = [] := rfl

theorem chunkSizes_pos (n : Nat) (h : n ≠ 0) :
    chunkSizes n =
      min VPK_ENTRY_MAX_LEN n :: chunkSizes (n - min VPK_ENTRY_MAX_LEN n) := by
  match n, h with
  | m + 1, _ =>
      show chunkSizesAux (m + 1) (m + 1) = _
      have hc : 0 < min VPK_ENTRY_MAX_LEN (m + 1) := by
        simp [Nat.lt_min, VPK_ENTRY_MAX_LEN]
      have hsub : m + 1 - min VPK_ENTRY_MAX_LEN (m + 1) ≤ m := by omega
      simp only [chunkSizesAux]
      rw [chunkSizesAux_fuel m _ hsub]
      rfl

theorem chunkSizes_eq_nil_iff (n : Nat) : chunkSizes n = [] ↔ n = 0 := by
  constructor
  · intro h
    by_contra hn
    rw [chunkSizes_pos n hn] at h
    exact List.cons_ne_nil _ _ h
  · intro h; subst h; exact chunkSizes_zero

theorem chunkSizes_sum (n : Nat) : (chunkSizes n).sum = n := by
  induction n using Nat.strong_induction_on with
  | _ n ih =>
      by_cases h : n = 0
      · subst h; simp [chunkSizes_zero]
      · rw [chunkSizes_pos n h]
        have hmin : 0 < min VPK_ENTRY_MAX_LEN n := by
          have : 0 < n := Nat.pos_of_ne_zero h
          simp [Nat.lt_min, this, VPK_ENTRY_MAX_LEN]
        have hrec := ih (n - min VPK_ENTRY_MAX_LEN n)
          (Nat.sub_lt (Nat.pos_of_ne_zero h) hmin)
        have hle : min VPK_ENTRY_MAX_LEN n ≤ n := Nat.min_le_right _ _
        simp only [List.sum_cons, hrec]
        omega

theorem chunkSizes_mem (n : Nat) :
    ∀ c ∈ chunkSizes n, 0 < c ∧ c ≤ VPK_ENTRY_MAX_LEN := by
  induction n using Nat.strong_induction_on with
  | _ n ih =>
      intro c hc
      by_cases h : n = 0
      · subst h; rw [chunkSizes_zero] at hc; cases hc
      · rw [chunkSizes_pos n h] at hc
        rcases List.mem_cons.mp hc with h1 | h1
        · subst h1
          have : 0 < n := Nat.pos_of_ne_zero h
          constructor
          · simp [Nat.lt_min, this, VPK_ENTRY_MAX_LEN]
          · exact Nat.min_le_left _ _
        · have hmin : 0 < min VPK_ENTRY_MAX_LEN n := by
            have : 0 < n := Nat.pos_of_ne_zero h
            simp [Nat.lt_min, this, VPK_ENTRY_MAX_LEN]
          exact ih (n - min VPK_ENTRY_MAX_LEN n)
            (Nat.sub_lt (Nat.pos_of_ne_zero h) hmin) c h1

theorem chunkSizes_dropLast (n : Nat) :
    ∀ c ∈ (chunkSizes n).dropLast, c = VPK_ENTRY_MAX_LEN := by
  induction n using Nat.strong_induction_on with
  | _ n ih =>
      intro c hc
      by_cases h : n = 0
      · subst h; rw [chunkSizes_zero] at hc; cases hc
      · rw [chunkSizes_pos n h] at hc
        by_cases htail : n - min VPK_ENTRY_MAX_LEN n = 0
        · rw [htail, chunkSizes_zero] at hc
          simp [List.dropLast] at hc
        · have hne : chunkSizes (n - min VPK_ENTRY_MAX_LEN n) ≠ [] := by
            rw [Ne, chunkSizes_eq_nil_iff]; exact htail
          rw [List.dropLast_cons_of_ne_nil hne] at hc
          rcases List.mem_cons.mp hc with h1 | h1
          · subst h1
            have : VPK_ENTRY_MAX_LEN ≤ n := by
              by_contra hlt
              push_neg at hlt
              have : min VPK_ENTRY_MAX_LEN n = n :=
                Nat.min_eq_right (Nat.le_of_lt hlt)
              omega
            exact Nat.min_eq_left this
          · have hmin : 0 < min VPK_ENTRY_MAX_LEN n := by
              have : 0 < n := Nat.pos_of_ne_zero h
              simp [Nat.lt_min, this, VPK_ENTRY_MAX_LEN]
            exact ih (n - min VPK_ENTRY_MAX_LEN n)
              (Nat.sub_lt (Nat.pos_of_ne_zero h) hmin) c h1

theorem entryBlock_sizes (data : List Nat) (p idx lf tf : Nat)
    (path : List Nat) (hp : p ≤ data.length) :
    ((VPKEntryBlock_mk data p idx lf tf path).m_Fragments).map
      (fun f => f.m_nUncompressedSize) = chunkSizes (data.length - p) := by
  unfold VPKEntryBlock_mk
  simp only [List.map_map]
  have harg : (if data.length > p then data.length - p else 0) =
      data.length - p := by
    by_cases h : data.length > p
    · simp [h]
    · have : data.length - p = 0 := by omega
      simp [h, this]
  rw [harg]
  generalize chunkSizes (data.length - p) = l
  induction l with
  | nil => rfl
  | cons c t ih => simpa using ih

/-- C4: for a non-empty input of length `L` with preload size `p ≤ L`,
the fragment list splits the remaining `L - p` bytes in source order:
every fragment except the last has uncompressed size exactly 1 MiB,
the last (whenever fragments exist, i.e. whenever `p < L`) has
uncompressed size in `(0, 1 MiB]`, and the sizes sum to `L - p`. -/
theorem C4_fragment_size_law (data : List Nat) (p idx lf tf : Nat)
    (path : List Nat) (hL : 0 < data.length) (hp : p ≤ data.length) :
    (((VPKEntryBlock_mk data p idx lf tf path).m_Fragments).map
        (fun f => f.m_nUncompressedSize)).sum = data.length - p ∧
    (∀ s ∈ (((VPKEntryBlock_mk data p idx lf tf path).m_Fragments).map
        (fun f => f.m_nUncompressedSize)).dropLast, s = 1048576) ∧
    (∀ h : ((VPKEntryBlock_mk data p idx lf tf path).m_Fragments).map
        (fun f => f.m_nUncompressedSize) ≠ [],
      0 < (((VPKEntryBlock_mk data p idx lf tf path).m_Fragments).map
        (fun f => f.m_nUncompressedSize)).getLast h ∧
      (((VPKEntryBlock_mk data p idx lf tf path).m_Fragments).map
        (fun f => f.m_nUncompressedSize)).getLast h ≤ 1048576) ∧
    (p < data.length →
      ((VPKEntryBlock_mk data p idx lf tf path).m_Fragments).map
        (fun f => f.m_nUncompressedSize) ≠ []) := by
  rw [entryBlock_sizes data p idx lf tf path hp]
  refine ⟨chunkSizes_sum _, ?_, ?_, ?_⟩
  · intro s hs
    exact chunkSizes_dropLast _ s hs
  · intro h
    have hmem := List.getLast_mem h
    exact chunkSizes_mem _ _ hmem
  · intro hlt
    rw [Ne, chunkSizes_eq_nil_iff]
    omega

/-- C4 witness: a 3-byte file with preload size 1 has one fragment of
size 2. -/
theorem C4_fragment_size_law_witness :
    0 < ([7, 8, 9] : List Nat).length ∧ 1 ≤ ([7, 8, 9] : List Nat).length ∧
    ((((VPKEntryBlock_mk [7, 8, 9] 1 0 0 0 [97]).m_Fragments).map
        (fun f => f.m_nUncompressedSize)).sum =
      ([7, 8, 9] : List Nat).length - 1 ∧
    (∀ s ∈ (((VPKEntryBlock_mk [7, 8, 9] 1 0 0 0 [97]).m_Fragments).map
        (fun f => f.m_nUncompressedSize)).dropLast, s = 1048576) ∧
    (∀ h : ((VPKEntryBlock_mk [7, 8, 9] 1 0 0 0 [97]).m_Fragments).map
        (fun f => f.m_nUncompressedSize) ≠ [],
      0 < (((VPKEntryBlock_mk [7, 8, 9] 1 0 0 0 [97]).m_Fragments).map
        (fun f => f.m_nUncompressedSize)).getLast h ∧
      (((VPKEntryBlock_mk [7, 8, 9] 1 0 0 0 [97]).m_Fragments).map
        (fun f => f.m_nUncompressedSize)).getLast h ≤ 1048576) ∧
    (1 < ([7, 8, 9] : List Nat).length →
      ((VPKEntryBlock_mk [7, 8, 9] 1 0 0 0 [97]).m_Fragments).map
        (fun f => f.m_nUncompressedSize) ≠ [])) :=
  ⟨by simp, by simp,
   C4_fragment_size_law [7, 8, 9] 1 0 0 0 [97] (by simp) (by simp)⟩

/-! ## PackStore pipeline lemmas -/

theorem lookupChunk_cons (fb : List Nat) (d : VPKChunkDescriptor_t)
    (m : List (List Nat × VPKChunkDescriptor_t)) (k : List Nat) :
    lookupChunk ((fb, d) :: m) k =
      if fb = k then some d else lookupChunk m k := by
  by_cases h : fb = k
  · simp [lookupChunk, List.find?_cons_of_pos, h]
  · simp [lookupChunk, List.find?_cons_of_neg, h]

theorem lookupChunk_mem (m : List (List Nat × VPKChunkDescriptor_t))
    (k : List Nat) (d : VPKChunkDescriptor_t)
    (h : lookupChunk m k = some d) : ∃ q ∈ m, q.2 = d := by
  unfold lookupChunk at h
  cases hf : m.find? (fun p => decide (p.1 = k)) with
  | none => rw [hf] at h; cases h
  | some q =>
      rw [hf] at h
      exact ⟨q, List.mem_of_find?_eq_some hf, by injection h⟩

theorem dedupStep_lookup_self (st : PackState) (fb : List Nat)
    (tmpl : VPKChunkDescriptor_t) :
    lookupChunk (dedupStep st fb tmpl).1.hmap fb =
      some (dedupStep st fb tmpl).2 := by
  unfold dedupStep
  cases hl : lookupChunk st.hmap fb with
  | some d => simp [hl]
  | none => simp [hl, lookupChunk_cons]

theorem dedupStep_lookup_mono (st : PackState) (fb : List Nat)
    (tmpl : VPKChunkDescriptor_t) (k : List Nat)
    (d : VPKChunkDescriptor_t) (h : lookupChunk st.hmap k = some d) :
    lookupChunk (dedupStep st fb tmpl).1.hmap k = some d := by
  unfold dedupStep
  cases hl : lookupChunk st.hmap fb with
  | some d' => simpa using h
  | none =>
      have hne : fb ≠ k := by
        rintro rfl
        rw [hl] at h
        cases h
      simp [lookupChunk_cons, hne, h]

theorem processChunks_mono (codec : List Nat → Option (List Nat))
    (useComp : Bool) (frags : List VPKChunkDescriptor_t) :
    ∀ st data k d, lookupChunk st.hmap k = some d →
      lookupChunk (processChunks codec useComp st frags data).1.hmap k =
        some d := by
  induction frags with
  | nil =>
      intro st data k d h
      simpa [processChunks] using h
  | cons f fs ih =>
      intro st data k d h
      simp only [processChunks]
      exact ih _ _ k d (dedupStep_lookup_mono _ _ _ k d h)

theorem processChunks_log (codec : List Nat → Option (List Nat))
    (useComp : Bool) (frags : List VPKChunkDescriptor_t) :
    ∀ st data, ∀ p ∈ (processChunks codec useComp st frags data).2.2,
      lookupChunk (processChunks codec useComp st frags data).1.hmap p.1 =
        some p.2 := by
  induction frags with
  | nil =>
      intro st data p hp
      simp [processChunks] at hp
  | cons f fs ih =>
      intro st data p hp
      simp only [processChunks, List.mem_cons] at hp
      simp only [processChunks]
      rcases hp with h1 | h1
      · subst h1
        exact processChunks_mono codec useComp fs _ _ _ _
          (dedupStep_lookup_self st _ f)
      · exact ih _ _ p h1

theorem runPackStore_mono (codec : List Nat → Option (List Nat))
    (files : List (List Nat × VPKKeyValues_t)) :
    ∀ st k d, lookupChunk st.hmap k = some d →
      lookupChunk (runPackStore codec st files).1.hmap k = some d := by
  induction files with
  | nil =>
      intro st k d h
      simpa [runPackStore] using h
  | cons f rest ih =>
      intro st k d h
      obtain ⟨data, kv⟩ := f
      by_cases hz : data.length = 0
      · simp only [runPackStore, hz, if_true]
        exact ih st k d h
      · simp only [runPackStore, hz, if_false, packFile]
        exact ih _ k d (processChunks_mono _ _ _ _ _ k d h)

theorem runPackStore_log (codec : List Nat → Option (List Nat))
    (files : List (List Nat × VPKKeyValues_t)) :
    ∀ st, ∀ p ∈ (runPackStore codec st files).2.2,
      lookupChunk (runPackStore codec st files).1.hmap p.1 = some p.2 := by
  induction files with
  | nil =>
      intro st p hp
      simp [runPackStore] at hp
  | cons f rest ih =>
      intro st p hp
      obtain ⟨data, kv⟩ := f
      by_cases hz : data.length = 0
      · simp only [runPackStore, hz, if_true] at hp ⊢
        exact ih st p hp
      · simp only [runPackStore, hz, if_false, packFile, List.mem_append] at hp ⊢
        rcases hp with h1 | h1
        · exact runPackStore_mono codec rest _ _ _
            (processChunks_log codec _ _ _ _ p h1)
        · exact ih _ p h1

/-- C2: within one `PackStore` run, any two logged chunks with identical
post-codec bytes receive descriptors with equal pack offset and equal
compressed size; the later occurrence receives the earlier writer's
stored descriptor unchanged (all fields, including load flags, texture
flags and uncompressed size). -/
theorem C2_dedup_law (codec : List Nat → Option (List Nat))
    (files : List (List Nat × VPKKeyValues_t)) (i j : Nat)
    (pi pj : List Nat × VPKChunkDescriptor_t) (hij : i < j)
    (hgi : (packLog codec files)[i]? = some pi)
    (hgj : (packLog codec files)[j]? = some pj)
    (hfb : pi.1 = pj.1) :
    pi.2.m_nPackFileOffset = pj.2.m_nPackFileOffset ∧
    pi.2.m_nCompressedSize = pj.2.m_nCompressedSize ∧
    pj.2 = pi.2 := by
  have hmi : pi ∈ packLog codec files := List.getElem?_mem hgi
  have hmj : pj ∈ packLog codec files := List.getElem?_mem hgj
  have h1 := runPackStore_log codec files ⟨[], []⟩ pi hmi
  have h2 := runPackStore_log codec files ⟨[], []⟩ pj hmj
  rw [hfb] at h1
  rw [h1] at h2
  have : pj.2 = pi.2 := by injection h2 with h; exact h.symm
  exact ⟨by rw [this], by rw [this], this⟩

/-- C2 witness: packing the same 1-byte file twice logs two chunks with
identical bytes and identical recorded descriptors. -/
theorem C2_dedup_law_witness :
    ((0:Nat) < 1) ∧
    ((packLog (fun _ => none)
        [([1], ⟨[97], 0, 5, 7, false, true⟩),
         ([1], ⟨[97], 0, 5, 7, false, true⟩)])[0]? =
      some ([1], ⟨5, 7, 0, 1, 1⟩)) ∧
    ((packLog (fun _ => none)
        [([1], ⟨[97], 0, 5, 7, false, true⟩),
         ([1], ⟨[97], 0, 5, 7, false, true⟩)])[1]? =
      some ([1], ⟨5, 7, 0, 1, 1⟩)) ∧
    ((⟨5, 7, 0, 1, 1⟩ : VPKChunkDescriptor_t) = ⟨5, 7, 0, 1, 1⟩) :=
  ⟨Nat.zero_lt_one, by decide, by decide, by
    have h := C2_dedup_law (fun _ => none)
      [([1], ⟨[97], 0, 5, 7, false, true⟩),
       ([1], ⟨[97], 0, 5, 7, false, true⟩)] 0 1
      ([1], ⟨5, 7, 0, 1, 1⟩) ([1], ⟨5, 7, 0, 1, 1⟩)
      Nat.zero_lt_one (by decide) (by decide) rfl
    exact h.2.2⟩

theorem finalBytes_length_le (codec : List Nat → Option (List Nat))
    (useComp : Bool) (raw : List Nat) :
    (finalBytes codec useComp raw).length ≤ raw.length := by
  unfold finalBytes
  by_cases h : useComp
  · simp only [h, if_true]
    cases codec raw with
    | none => exact le_refl _
    | some out =>
        simp only []
        by_cases hlt : out.length < raw.length
        · simpa [hlt] using Nat.le_of_lt hlt
        · simp [hlt]
  · simp [h]

theorem dedupStep_comp_le (st : PackState) (fb : List Nat)
    (tmpl : VPKChunkDescriptor_t)
    (hmap : ∀ q ∈ st.hmap,
      q.2.m_nCompressedSize ≤ q.2.m_nUncompressedSize)
    (hle : fb.length ≤ tmpl.m_nUncompressedSize) :
    ((dedupStep st fb tmpl).2.m_nCompressedSize ≤
      (dedupStep st fb tmpl).2.m_nUncompressedSize) ∧
    (∀ q ∈ (dedupStep st fb tmpl).1.hmap,
      q.2.m_nCompressedSize ≤ q.2.m_nUncompressedSize) := by
  unfold dedupStep
  cases hl : lookupChunk st.hmap fb with
  | some d =>
      obtain ⟨q, hq, hqd⟩ := lookupChunk_mem _ _ _ hl
      refine ⟨?_, by simpa using hmap⟩
      simpa [hqd] using hmap q hq
  | none =>
      refine ⟨by simpa using hle, ?_⟩
      intro q hq
      simp only [List.mem_cons] at hq
      rcases hq with h1 | h1
      · subst h1; simpa using hle
      · exact hmap q h1

theorem processChunks_comp_le (codec : List Nat → Option (List Nat))
    (useComp : Bool) (frags : List VPKChunkDescriptor_t) :
    ∀ st data,
      (∀ q ∈ st.hmap, q.2.m_nCompressedSize ≤ q.2.m_nUncompressedSize) →
      (∀ q ∈ (processChunks codec useComp st frags data).1.hmap,
        q.2.m_nCompressedSize ≤ q.2.m_nUncompressedSize) ∧
      (∀ p ∈ (processChunks codec useComp st frags data).2.2,
        p.2.m_nCompressedSize ≤ p.2.m_nUncompressedSize) := by
  induction frags with
  | nil =>
      intro st data hmap
      refine ⟨by simpa [processChunks] using hmap, ?_⟩
      intro p hp
      simp [processChunks] at hp
  | cons f fs ih =>
      intro st data hmap
      have hraw : (data.take f.m_nUncompressedSize).length ≤
          f.m_nUncompressedSize := by
        simp [List.length_take]
      have hle : (finalBytes codec useComp
          (data.take f.m_nUncompressedSize)).length ≤
          f.m_nUncompressedSize :=
        le_trans (finalBytes_length_le codec useComp _) hraw
      have hstep := dedupStep_comp_le st
        (finalBytes codec useComp (data.take f.m_nUncompressedSize)) f
        hmap hle
      have hrec := ih (dedupStep st
        (finalBytes codec useComp (data.take f.m_nUncompressedSize)) f).1
        ((data.drop (dedupStep st
          (finalBytes codec useComp (data.take f.m_nUncompressedSize))
          f).2.m_nUncompressedSize)) hstep.2
      constructor
      · intro q hq
        simp only [processChunks] at hq
        exact hrec.1 q hq
      · intro p hp
        simp only [processChunks, List.mem_cons] at hp
        rcases hp with h1 | h1
        · subst h1; exact hstep.1
        · exact hrec.2 p h1

theorem runPackStore_comp_le (codec : List Nat → Option (List Nat))
    (files : List (List Nat × VPKKeyValues_t)) :
    ∀ st,
      (∀ q ∈ st.hmap, q.2.m_nCompressedSize ≤ q.2.m_nUncompressedSize) →
      (∀ q ∈ (runPackStore codec st files).1.hmap,
        q.2.m_nCompressedSize ≤ q.2.m_nUncompressedSize) ∧
      (∀ p ∈ (runPackStore codec st files).2.2,
        p.2.m_nCompressedSize ≤ p.2.m_nUncompressedSize) := by
  induction files with
  | nil =>
      intro st hmap
      refine ⟨by simpa [runPackStore] using hmap, ?_⟩
      intro p hp
      simp [runPackStore] at hp
  | cons f rest ih =>
      intro st hmap
      obtain ⟨data, kv⟩ := f
      by_cases hz : data.length = 0
      · simp only [runPackStore, hz, if_true]
        exact ih st hmap
      · have hfile := processChunks_comp_le codec kv.m_bUseCompression
          (VPKEntryBlock_mk data kv.m_iPreloadSize 0 kv.m_nLoadFlags
            kv.m_nTextureFlags kv.m_EntryPath).m_Fragments st data hmap
        have hrec := ih _ hfile.1
        constructor
        · intro q hq
          simp only [runPackStore, hz, if_false, packFile] at hq
          exact hrec.1 q hq
        · intro p hp
          simp only [runPackStore, hz, if_false, packFile,
            List.mem_append] at hp
          rcases hp with h1 | h1
          · exact hfile.2 p h1
          · exact hrec.2 p h1

/-- C3: the compression keep rule and its consequence.  (1) Every chunk
descriptor logged by a `PackStore` run satisfies
`compressed_size ≤ uncompressed_size`.  (2) The post-codec bytes of a
chunk are either the raw bytes, or a codec output (marker included)
that is strictly smaller than the raw chunk.  (3) A fresh (non-dedup)
write records the final byte count as the compressed size, keeps the
template's uncompressed size, and appends exactly the final bytes to
the pack file.  (4) Hence a fresh write of an unshrunk chunk whose
template records the raw length has `compressed_size =
uncompressed_size`. -/
theorem C3_compression_rule (codec : List Nat → Option (List Nat))
    (files : List (List Nat × VPKKeyValues_t)) :
    (∀ p ∈ packLog codec files,
      p.2.m_nCompressedSize ≤ p.2.m_nUncompressedSize) ∧
    (∀ (useComp : Bool) (raw : List Nat),
      finalBytes codec useComp raw = raw ∨
      (useComp = true ∧ ∃ out, codec raw = some out ∧
        out.length < raw.length ∧ finalBytes codec useComp raw = out)) ∧
    (∀ (st : PackState) (fb : List Nat) (tmpl : VPKChunkDescriptor_t),
      lookupChunk st.hmap fb = none →
      (dedupStep st fb tmpl).2.m_nCompressedSize = fb.length ∧
      (dedupStep st fb tmpl).2.m_nUncompressedSize =
        tmpl.m_nUncompressedSize ∧
      (dedupStep st fb tmpl).1.packData = st.packData ++ fb) ∧
    (∀ (st : PackState) (useComp : Bool) (raw : List Nat)
        (tmpl : VPKChunkDescriptor_t),
      lookupChunk st.hmap (finalBytes codec useComp raw) = none →
      tmpl.m_nUncompressedSize = raw.length →
      finalBytes codec useComp raw = raw →
      (dedupStep st (finalBytes codec useComp raw) tmpl).2.m_nCompressedSize =
        (dedupStep st (finalBytes codec useComp raw)
          tmpl).2.m_nUncompressedSize) := by
  refine ⟨?_, ?_, ?_, ?_⟩
  · intro p hp
    exact (runPackStore_comp_le codec files ⟨[], []⟩ (by intro q hq; cases hq)).2
      p hp
  · intro useComp raw
    unfold finalBytes
    by_cases h : useComp
    · rw [if_pos h]
      cases hc : codec raw with
      | none => left; rfl
      | some out =>
          by_cases hlt : out.length < raw.length
          · right
            exact ⟨h, out, rfl, hlt, by simp [hlt]⟩
          · left
            simp [hlt]
    · rw [if_neg h]
      left
      rfl
  · intro st fb tmpl hl
    unfold dedupStep
    simp [hl]
  · intro st useComp raw tmpl hl htmpl hraw
    rw [hraw] at hl ⊢
    unfold dedupStep
    simp [hl, htmpl]

/-- C3 witness: the packed 1-byte file yields a descriptor with
`compressed_size ≤ uncompressed_size`; the fresh write of its chunk
records size 1 against template size 1. -/
theorem C3_compression_rule_witness :
    (([1], (⟨5, 7, 0, 1, 1⟩ : VPKChunkDescriptor_t)) ∈
      packLog (fun _ => none) [([1], ⟨[97], 0, 5, 7, false, true⟩)]) ∧
    ((⟨5, 7, 0, 1, 1⟩ : VPKChunkDescriptor_t).m_nCompressedSize ≤
      (⟨5, 7, 0, 1, 1⟩ : VPKChunkDescriptor_t).m_nUncompressedSize) ∧
    (finalBytes (fun _ => none) false [1] = [1] ∨
      (false = true ∧ ∃ out, (fun _ => none : List Nat → Option (List Nat)) [1] = some out ∧
        out.length < ([1] : List Nat).length ∧
        finalBytes (fun _ => none) false [1] = out)) ∧
    (lookupChunk (⟨[], []⟩ : PackState).hmap [1] = none ∧
      (dedupStep ⟨[], []⟩ [1] ⟨5, 7, 0, 1, 1⟩).2.m_nCompressedSize = 1) :=
  ⟨by decide,
   (C3_compression_rule (fun _ => none)
      [([1], ⟨[97], 0, 5, 7, false, true⟩)]).1
     ([1], ⟨5, 7, 0, 1, 1⟩) (by decide),
   (C3_compression_rule (fun _ => none)
      [([1], ⟨[97], 0, 5, 7, false, true⟩)]).2.1 false [1],
   by decide,
   by
     have h := (C3_compression_rule (fun _ => none)
        [([1], ⟨[97], 0, 5, 7, false, true⟩)]).2.2.1
        ⟨[], []⟩ [1] ⟨5, 7, 0, 1, 1⟩ (by decide)
     simpa using h.1⟩

/-! ## Empty-source behavior (C9) -/

/-- C9 counterexample: the delta-common empty-file branch emits an entry
block with one fragment, not zero fragments. -/
theorem C9_zero_fragment_counterexample :
    (deltaCommonEmptyEntry ⟨[97], 0, 0, 0, false, true⟩).m_Fragments.length
      ≠ 0 := by decide

/-- C9 (amended): an empty source file contributes no entry block (and
no state change) to a `PackStore` run, wherever it occurs in the
manifest; the delta-common variant instead emits an entry block with
exactly one all-zero fragment carrying the manifest flags. -/
theorem C9_empty_source_behavior :
    (∀ (codec : List Nat → Option (List Nat)) (st : PackState)
        (pre post : List (List Nat × VPKKeyValues_t)) (kv : VPKKeyValues_t),
      runPackStore codec st (pre ++ ([], kv) :: post) =
        runPackStore codec st (pre ++ post)) ∧
    (∀ kv : VPKKeyValues_t,
      (deltaCommonEmptyEntry kv).m_Fragments =
        [⟨kv.m_nLoadFlags, kv.m_nTextureFlags, 0, 0, 0⟩]) := by
  constructor
  · intro codec st pre post kv
    induction pre generalizing st with
    | nil => simp [runPackStore]
    | cons f pre ih =>
        obtain ⟨data, kv'⟩ := f
        by_cases hz : data.length = 0
        · simp only [List.cons_append, runPackStore, hz, if_true]
          exact ih st
        · simp only [List.cons_append, runPackStore, hz, if_false,
            List.append_eq]
          rw [ih]
  · intro kv
    rfl

/-! ## Unpack fragment decoding (C5) -/

theorem R1D_markerBytes_length : R1D_markerBytes.length = 8 :=
  leBytes_length 8 R1D_marker

/-- C5: per-fragment unpack behavior.  A fragment with pack offset 0 and
compressed size 0 contributes nothing; otherwise `compressed_size`
bytes are read at `pack_offset`; if compressed and uncompressed sizes
are equal they are written raw; else a chunk whose first 8 read bytes
equal the little-endian ZSTD marker is ZSTD-decompressed after the
marker, and anything else is LZHAM-decompressed (failures contribute
nothing).  The source's explicit `compressed_size >= 8` guard is
redundant: fewer than 8 read bytes can never equal the 8-byte
marker. -/
theorem C5_unpack_fragment_cases
    (zstdDecomp lzhamDecomp : List Nat → Option (List Nat))
    (pack : List Nat) (frag : VPKChunkDescriptor_t)
    (hwf : frag.m_nPackFileOffset + frag.m_nCompressedSize ≤ pack.length) :
    unpackFragment zstdDecomp lzhamDecomp pack frag =
      if frag.m_nPackFileOffset = 0 ∧ frag.m_nCompressedSize = 0 then []
      else if frag.m_nCompressedSize = frag.m_nUncompressedSize then
        (pack.drop frag.m_nPackFileOffset).take frag.m_nCompressedSize
      else if ((pack.drop frag.m_nPackFileOffset).take
          frag.m_nCompressedSize).take 8 = R1D_markerBytes then
        (zstdDecomp (((pack.drop frag.m_nPackFileOffset).take
          frag.m_nCompressedSize).drop 8)).getD []
      else
        (lzhamDecomp ((pack.drop frag.m_nPackFileOffset).take
          frag.m_nCompressedSize)).getD [] := by
  unfold unpackFragment
  by_cases h0 : frag.m_nPackFileOffset = 0 ∧ frag.m_nCompressedSize = 0
  · simp [h0]
  · rw [if_neg h0, if_neg h0]
    by_cases hraw : frag.m_nCompressedSize = frag.m_nUncompressedSize
    · simp [hraw]
    · rw [if_neg hraw, if_neg hraw]
      have hsrc : ((pack.drop frag.m_nPackFileOffset).take
          frag.m_nCompressedSize).length = frag.m_nCompressedSize := by
        simp [List.length_take, List.length_drop]
        omega
      by_cases h8 : 8 ≤ frag.m_nCompressedSize
      · have hguard : (8 ≤ frag.m_nCompressedSize ∧
            ((pack.drop frag.m_nPackFileOffset).take
              frag.m_nCompressedSize).take 8 = R1D_markerBytes) ↔
            ((pack.drop frag.m_nPackFileOffset).take
              frag.m_nCompressedSize).take 8 = R1D_markerBytes := by
          constructor
          · exact And.right
          · exact fun h => ⟨h8, h⟩
        by_cases hm : ((pack.drop frag.m_nPackFileOffset).take
            frag.m_nCompressedSize).take 8 = R1D_markerBytes
        · rw [if_pos ⟨h8, hm⟩, if_pos hm]
          cases zstdDecomp (((pack.drop frag.m_nPackFileOffset).take
            frag.m_nCompressedSize).drop 8) <;> rfl
        · rw [if_neg (by rintro ⟨_, hc⟩; exact hm hc), if_neg hm]
          cases lzhamDecomp ((pack.drop frag.m_nPackFileOffset).take
            frag.m_nCompressedSize) <;> rfl
      · have hm : ¬ ((pack.drop frag.m_nPackFileOffset).take
            frag.m_nCompressedSize).take 8 = R1D_markerBytes := by
          intro hc
          have h1 : (((pack.drop frag.m_nPackFileOffset).take
              frag.m_nCompressedSize).take 8).length =
              R1D_markerBytes.length := by rw [hc]
          rw [R1D_markerBytes_length] at h1
          simp only [List.length_take, hsrc] at h1
          omega
        rw [if_neg (by rintro ⟨hc, _⟩; exact h8 hc), if_neg hm]
        cases lzhamDecomp ((pack.drop frag.m_nPackFileOffset).take
          frag.m_nCompressedSize) <;> rfl

/-- C5 witness: a raw fragment (equal sizes) at offset 2 of a 5-byte
pack file copies its 3 bytes. -/
theorem C5_unpack_fragment_cases_witness :
    ((⟨0, 0, 2, 3, 3⟩ : VPKChunkDescriptor_t).m_nPackFileOffset +
        (⟨0, 0, 2, 3, 3⟩ : VPKChunkDescriptor_t).m_nCompressedSize ≤
      ([4, 5, 6, 7, 8] : List Nat).length) ∧
    unpackFragment (fun _ => none) (fun _ => none) [4, 5, 6, 7, 8]
        ⟨0, 0, 2, 3, 3⟩ =
      if (⟨0, 0, 2, 3, 3⟩ : VPKChunkDescriptor_t).m_nPackFileOffset = 0 ∧
          (⟨0, 0, 2, 3, 3⟩ : VPKChunkDescriptor_t).m_nCompressedSize = 0 then
        []
      else if (⟨0, 0, 2, 3, 3⟩ : VPKChunkDescriptor_t).m_nCompressedSize =
          (⟨0, 0, 2, 3, 3⟩ : VPKChunkDescriptor_t).m_nUncompressedSize then
        (([4, 5, 6, 7, 8] : List Nat).drop 2).take 3
      else if ((([4, 5, 6, 7, 8] : List Nat).drop 2).take 3).take 8 =
          R1D_markerBytes then
        ((fun _ => none : List Nat → Option (List Nat))
          (((([4, 5, 6, 7, 8] : List Nat).drop 2).take 3).drop 8)).getD []
      else
        ((fun _ => none : List Nat → Option (List Nat))
          ((([4, 5, 6, 7, 8] : List Nat).drop 2).take 3)).getD [] :=
  ⟨by decide,
   C5_unpack_fragment_cases (fun _ => none) (fun _ => none)
     [4, 5, 6, 7, 8] ⟨0, 0, 2, 3, 3⟩ (by decide)⟩

/-! ## Manifest derivation (C8) -/

/-- C8 counterexample: for an entry with no fragments the rebuilt
manifest's `loadFlags` is 3, not 0. -/
theorem C8_loadflags_counterexample :
    manifestLoadFlags ⟨0, 0, 0, [], [], [97]⟩ = 3 ∧
    manifestLoadFlags ⟨0, 0, 0, [], [], [97]⟩ ≠ 0 := by decide

/-- C8 (amended): in the manifest rebuilt from a parsed directory,
`useCompression` is true iff some fragment has
`compressed_size < uncompressed_size`; `loadFlags` and `textureFlags`
are taken from the first fragment, and default to 3 and 0 respectively
(not both 0) when the entry has no fragments. -/
theorem C8_manifest_derivation (blk : VPKEntryBlock_t) :
    (manifestUseCompression blk = true ↔
      ∃ f ∈ blk.m_Fragments,
        f.m_nCompressedSize < f.m_nUncompressedSize) ∧
    (blk.m_Fragments = [] →
      manifestLoadFlags blk = 3 ∧ manifestTextureFlags blk = 0) ∧
    (∀ f fs, blk.m_Fragments = f :: fs →
      manifestLoadFlags blk = f.m_nLoadFlags ∧
      manifestTextureFlags blk = f.m_nTextureFlags) := by
  refine ⟨?_, ?_, ?_⟩
  · simp [manifestUseCompression, List.any_eq_true]
  · intro h
    unfold manifestLoadFlags manifestTextureFlags
    rw [h]
    exact ⟨rfl, rfl⟩
  · intro f fs h
    unfold manifestLoadFlags manifestTextureFlags
    rw [h]
    exact ⟨rfl, rfl⟩

/-- C8 witness: a one-fragment entry with a compressed fragment. -/
theorem C8_manifest_derivation_witness :
    manifestUseCompression ⟨9, 0, 0, [], [⟨5, 7, 0, 1, 2⟩], [97]⟩ = true ∧
    manifestLoadFlags ⟨9, 0, 0, [], [⟨5, 7, 0, 1, 2⟩], [97]⟩ = 5 ∧
    manifestTextureFlags ⟨9, 0, 0, [], [⟨5, 7, 0, 1, 2⟩], [97]⟩ = 7 :=
  ⟨(C8_manifest_derivation ⟨9, 0, 0, [], [⟨5, 7, 0, 1, 2⟩], [97]⟩).1.mpr
      ⟨⟨5, 7, 0, 1, 2⟩, by decide, by decide⟩,
   ((C8_manifest_derivation ⟨9, 0, 0, [], [⟨5, 7, 0, 1, 2⟩], [97]⟩).2.2
      ⟨5, 7, 0, 1, 2⟩ [] rfl).1,
   ((C8_manifest_derivation ⟨9, 0, 0, [], [⟨5, 7, 0, 1, 2⟩], [97]⟩).2.2
      ⟨5, 7, 0, 1, 2⟩ [] rfl).2⟩

/-! ## Multi-locale differencing (C6) -/

theorem crcLookup_cons (k0 : List Nat) (v0 : Nat)
    (t : List (List Nat × Nat)) (k : List Nat) :
    crcLookup ((k0, v0) :: t) k =
      if k0 = k then some v0 else crcLookup t k := by
  by_cases h : k0 = k
  · subst h
    simp [crcLookup, List.find?_cons_of_pos]
  · simp [crcLookup, List.find?_cons_of_neg, h]

theorem crcMapInsert_lookup_self (m : List (List Nat × Nat))
    (k : List Nat) (v : Nat) :
    crcLookup (crcMapInsert m k v) k = some v := by
  induction m with
  | nil =>
      show crcLookup [(k, v)] k = some v
      rw [crcLookup_cons, if_pos rfl]
  | cons q t ih =>
      obtain ⟨k0, v0⟩ := q
      by_cases h : k0 = k
      · subst h
        have he : crcMapInsert ((k0, v0) :: t) k0 v = (k0, v) :: t := by
          simp [crcMapInsert]
        rw [he, crcLookup_cons, if_pos rfl]
      · have he : crcMapInsert ((k0, v0) :: t) k v =
            (k0, v0) :: crcMapInsert t k v := by
          simp only [crcMapInsert]
          rw [if_neg h]
        rw [he, crcLookup_cons, if_neg h]
        exact ih

theorem crcMapInsert_lookup_other (m : List (List Nat × Nat))
    (k k' : List Nat) (v : Nat) (h : k' ≠ k) :
    crcLookup (crcMapInsert m k v) k' = crcLookup m k' := by
  induction m with
  | nil =>
      show crcLookup [(k, v)] k' = crcLookup [] k'
      rw [crcLookup_cons, if_neg (fun hc => h hc.symm)]
  | cons q t ih =>
      obtain ⟨k0, v0⟩ := q
      by_cases h0 : k0 = k
      · subst h0
        have he : crcMapInsert ((k0, v0) :: t) k0 v = (k0, v) :: t := by
          simp [crcMapInsert]
        rw [he, crcLookup_cons, crcLookup_cons,
          if_neg (fun hc => h hc.symm), if_neg (fun hc => h hc.symm)]
      · have he : crcMapInsert ((k0, v0) :: t) k v =
            (k0, v0) :: crcMapInsert t k v := by
          simp only [crcMapInsert]
          rw [if_neg h0]
        rw [he, crcLookup_cons, crcLookup_cons]
        by_cases hk : k0 = k'
        · rw [if_pos hk, if_pos hk]
        · rw [if_neg hk, if_neg hk]
          exact ih

theorem buildCrcMap_lookup (fb : List VPKEntryBlock_t) :
    ∀ (m : List (List Nat × Nat)) (k : List Nat),
      crcLookup
        (fb.foldl (fun m b => crcMapInsert m b.m_EntryPath b.m_nFileCRC) m)
        k =
      (match fb.reverse.find? (fun b => decide (b.m_EntryPath = k)) with
        | some b => some b.m_nFileCRC
        | none => crcLookup m k) := by
  induction fb with
  | nil => intro m k; rfl
  | cons b rest ih =>
      intro m k
      simp only [List.foldl_cons, List.reverse_cons, List.find?_append]
      rw [ih]
      cases hf : rest.reverse.find? (fun b => decide (b.m_EntryPath = k)) with
      | some b' => simp [hf]
      | none =>
          simp only [hf, Option.none_or]
          by_cases hb : b.m_EntryPath = k
          · subst hb
            rw [List.find?_cons_of_pos _ (by simp)]
            simp [crcMapInsert_lookup_self]
          · rw [List.find?_cons_of_neg _ (by simpa using hb)]
            exact crcMapInsert_lookup_other m b.m_EntryPath k b.m_nFileCRC
              (fun hc => hb hc.symm)

/-- C6 counterexample: with two fallback entries sharing a path (CRCs 1
then 2), a locale entry with CRC 1 is extracted even though the
fallback does contain an entry with the same path and CRC. -/
theorem C6_skip_rule_counterexample :
    (∃ f ∈ ([⟨1, 0, 0, [], [], [112]⟩, ⟨2, 0, 0, [], [], [112]⟩] :
        List VPKEntryBlock_t),
      f.m_EntryPath = ([112] : List Nat) ∧ f.m_nFileCRC = 1) ∧
    sameAsFallback [⟨1, 0, 0, [], [], [112]⟩, ⟨2, 0, 0, [], [], [112]⟩]
      ⟨1, 0, 0, [], [], [112]⟩ = false ∧
    (⟨1, 0, 0, [], [], [112]⟩ : VPKEntryBlock_t) ∈
      unpackDifferencesExtracted
        [⟨1, 0, 0, [], [], [112]⟩, ⟨2, 0, 0, [], [], [112]⟩]
        [⟨1, 0, 0, [], [], [112]⟩] := by decide

/-- C6 (amended): an entry of the locale directory is skipped exactly
when the *last* fallback entry with the same entry path has the same
CRC; when the fallback's entry paths are distinct this coincides with
the claim's condition (some fallback entry has the same path and CRC),
and every non-skipped entry is extracted under the locale output
path. -/
theorem C6_differencing_rule (fallback locale : List VPKEntryBlock_t)
    (hnodup : (fallback.map (fun b => b.m_EntryPath)).Nodup) :
    (∀ blk, sameAsFallback fallback blk = true ↔
      ∃ f ∈ fallback, f.m_EntryPath = blk.m_EntryPath ∧
        f.m_nFileCRC = blk.m_nFileCRC) ∧
    unpackDifferencesExtracted fallback locale =
      locale.filter (fun b =>
        decide (¬ ∃ f ∈ fallback, f.m_EntryPath = b.m_EntryPath ∧
          f.m_nFileCRC = b.m_nFileCRC)) := by
  have hiff : ∀ blk : VPKEntryBlock_t, sameAsFallback fallback blk = true ↔
      ∃ f ∈ fallback, f.m_EntryPath = blk.m_EntryPath ∧
        f.m_nFileCRC = blk.m_nFileCRC := by
    intro blk
    unfold sameAsFallback buildFallbackCrcMap
    rw [buildCrcMap_lookup]
    cases hf : fallback.reverse.find?
        (fun b => decide (b.m_EntryPath = blk.m_EntryPath)) with
    | some g =>
        have hg : g ∈ fallback := by
          have := List.mem_of_find?_eq_some hf
          exact (List.mem_reverse).mp this
        have hgp : g.m_EntryPath = blk.m_EntryPath := by
          have := List.find?_some hf
          simpa using this
        constructor
        · intro h
          simp only at h
          have : g.m_nFileCRC = blk.m_nFileCRC := by
            simpa using h
          exact ⟨g, hg, hgp, this⟩
        · rintro ⟨f, hfm, hfp, hfc⟩
          have : f = g := List.inj_on_of_nodup_map hnodup hfm hg
            (by rw [hfp, hgp])
          subst this
          simpa using hfc
    | none =>
        constructor
        · intro h
          simp [crcLookup, List.find?] at h
        · rintro ⟨f, hfm, hfp, hfc⟩
          have : fallback.reverse.find?
              (fun b => decide (b.m_EntryPath = blk.m_EntryPath)) ≠ none := by
            rw [Ne, List.find?_eq_none]
            push_neg
            exact ⟨f, (List.mem_reverse).mpr hfm, by simpa using hfp⟩
          exact absurd hf this
  refine ⟨hiff, ?_⟩
  unfold unpackDifferencesExtracted
  apply List.filter_congr
  intro a _
  by_cases hp : ∃ f ∈ fallback, f.m_EntryPath = a.m_EntryPath ∧
      f.m_nFileCRC = a.m_nFileCRC
  · have : sameAsFallback fallback a = true := (hiff a).mpr hp
    simp [this, hp]
  · have : sameAsFallback fallback a = false := by
      cases h : sameAsFallback fallback a
      · rfl
      · exact absurd ((hiff a).mp h) hp
    simp [this, hp]

/-- C6 witness: with a single-path fallback the skip condition matches
the existential condition, and extraction filters accordingly. -/
theorem C6_differencing_rule_witness :
    ((([⟨1, 0, 0, [], [], [112]⟩] : List VPKEntryBlock_t).map
        (fun b => b.m_EntryPath)).Nodup) ∧
    (sameAsFallback [⟨1, 0, 0, [], [], [112]⟩] ⟨1, 0, 0, [], [], [112]⟩ =
        true ↔
      ∃ f ∈ ([⟨1, 0, 0, [], [], [112]⟩] : List VPKEntryBlock_t),
        f.m_EntryPath = ([112] : List Nat) ∧ f.m_nFileCRC = 1) :=
  ⟨by decide,
   (C6_differencing_rule [⟨1, 0, 0, [], [], [112]⟩]
      [⟨1, 0, 0, [], [], [112]⟩] (by decide)).1
     ⟨1, 0, 0, [], [], [112]⟩⟩

/-! ## Byte-string ordering lemmas -/

theorem bytesLt_irrefl (a : List Nat) : bytesLt a a = false := by
  induction a with
  | nil => rfl
  | cons x xs ih => simp [bytesLt, ih]

theorem bytesLt_asymm : ∀ a b : List Nat,
    bytesLt a b = true → bytesLt b a = false := by
  intro a
  induction a with
  | nil =>
      intro b h
      cases b with
      | nil => cases h
      | cons y ys => rfl
  | cons x xs ih =>
      intro b h
      cases b with
      | nil => cases h
      | cons y ys =>
          simp only [bytesLt] at h ⊢
          by_cases h1 : x < y
          · have h2 : ¬ y < x := by omega
            simp [h1, h2]
          · by_cases h2 : y < x
            · simp [h1, h2] at h
            · have hx : x = y := by omega
              subst hx
              simp only [h1, if_neg h1, if_false] at h ⊢
              exact ih ys h

theorem bytesLt_ne : ∀ a b : List Nat, bytesLt a b = true → a ≠ b := by
  intro a b h hc
  subst hc
  rw [bytesLt_irrefl] at h
  cases h

theorem bytesLt_conn : ∀ a b : List Nat,
    bytesLt a b = false → a ≠ b → bytesLt b a = true := by
  intro a
  induction a with
  | nil =>
      intro b h hne
      cases b with
      | nil => exact absurd rfl hne
      | cons y ys => cases h
  | cons x xs ih =>
      intro b h hne
      cases b with
      | nil => rfl
      | cons y ys =>
          simp only [bytesLt] at h ⊢
          by_cases h1 : x < y
          · simp [h1] at h
          · by_cases h2 : y < x
            · simp [h2]
            · have hx : x = y := by omega
              subst hx
              simp only [h1, if_neg h1, if_false] at h ⊢
              have hne2 : xs ≠ ys := by
                intro hc
                exact hne (by rw [hc])
              exact ih ys h hne2

theorem bytesLt_trans : ∀ a b c : List Nat,
    bytesLt a b = true → bytesLt b c = true → bytesLt a c = true := by
  intro a
  induction a with
  | nil =>
      intro b c hab hbc
      cases b with
      | nil => cases hab
      | cons y ys =>
          cases c with
          | nil => cases hbc
          | cons z zs => rfl
  | cons x xs ih =>
      intro b c hab hbc
      cases b with
      | nil => cases hab
      | cons y ys =>
          cases c with
          | nil => cases hbc
          | cons z zs =>
              simp only [bytesLt] at hab hbc ⊢
              by_cases h1 : x < y
              · by_cases h2 : y < z
                · have : x < z := by omega
                  simp [this]
                · by_cases h3 : z < y
                  · simp [h1, h2, h3] at hbc
                  · have : y = z := by omega
                    subst this
                    simp [h1]
              · by_cases h4 : y < x
                · simp [h1, h4] at hab
                · have hxy : x = y := by omega
                  subst hxy
                  simp only [h1, if_neg h1, if_false] at hab
                  by_cases h2 : x < z
                  · simp [h2]
                  · by_cases h3 : z < x
                    · simp [h1, h2, h3] at hbc
                    · have : x = z := by omega
                      subst this
                      simp only [h1, if_neg h1, if_false] at hbc ⊢
                      exact ih ys zs hab hbc

theorem bytesLt_nil_right (a : List Nat) : bytesLt a [] = false := by
  cases a <;> rfl

/-! ## Sorted-insertion lemmas -/

theorem assocInsert_append {β : Type} (mk : β) (upd : β → β) (k : List Nat)
    (l : List (List Nat × β)) (h : ∀ q ∈ l, bytesLt q.1 k = true) :
    assocInsert mk upd k l = l ++ [(k, mk)] := by
  induction l with
  | nil => rfl
  | cons q t ih =>
      obtain ⟨k', v⟩ := q
      have hk' : bytesLt k' k = true := h (k', v) (List.mem_cons_self _ _)
      have h1 : bytesLt k k' = false := bytesLt_asymm k' k hk'
      have h2 : k ≠ k' := fun hc => by
        subst hc
        rw [bytesLt_irrefl] at hk'
        cases hk'
      simp only [assocInsert, h1, Bool.false_eq_true, if_false, if_neg h2,
        List.cons_append, List.cons.injEq, true_and]
      exact ih (fun q hq => h q (List.mem_cons_of_mem _ hq))

theorem assocInsert_update_last {β : Type} (mk : β) (upd : β → β)
    (k : List Nat) (v : β) (l : List (List Nat × β))
    (h : ∀ q ∈ l, bytesLt q.1 k = true) :
    assocInsert mk upd k (l ++ [(k, v)]) = l ++ [(k, upd v)] := by
  induction l with
  | nil =>
      simp [assocInsert, bytesLt_irrefl]
  | cons q t ih =>
      obtain ⟨k', v'⟩ := q
      have hk' : bytesLt k' k = true := h (k', v') (List.mem_cons_self _ _)
      have h1 : ¬ bytesLt k k' = true := by
        rw [bytesLt_asymm k' k hk']
        exact Bool.false_ne_true
      have h2 : k ≠ k' := fun hc => by
        subst hc
        rw [bytesLt_irrefl] at hk'
        cases hk'
      simp only [List.cons_append, assocInsert]
      rw [if_neg h1, if_neg h2, List.append_eq,
        ih (fun q hq => h q (List.mem_cons_of_mem _ hq))]

theorem assocInsert_mem {β : Type} (mk : β) (upd : β → β) (k : List Nat)
    (l : List (List Nat × β)) :
    ∀ q ∈ assocInsert mk upd k l,
      q ∈ l ∨ q = (k, mk) ∨ ∃ v, (k, v) ∈ l ∧ q = (k, upd v) := by
  induction l with
  | nil =>
      intro q hq
      simp only [assocInsert, List.mem_singleton] at hq
      exact Or.inr (Or.inl hq)
  | cons p t ih =>
      obtain ⟨k', v'⟩ := p
      intro q hq
      simp only [assocInsert] at hq
      by_cases h1 : bytesLt k k' = true
      · rw [if_pos h1] at hq
        rcases List.mem_cons.mp hq with h | h
        · exact Or.inr (Or.inl h)
        · exact Or.inl h
      · rw [if_neg h1] at hq
        by_cases h2 : k = k'
        · rw [if_pos h2] at hq
          subst h2
          rcases List.mem_cons.mp hq with h | h
          · exact Or.inr (Or.inr ⟨v', List.mem_cons_self _ _, h⟩)
          · exact Or.inl (List.mem_cons_of_mem _ h)
        · rw [if_neg h2] at hq
          rcases List.mem_cons.mp hq with h | h
          · exact Or.inl (List.mem_cons.mpr (Or.inl h))
          · rcases ih q h with h3 | h3 | ⟨v, hv, hq3⟩
            · exact Or.inl (List.mem_cons_of_mem _ h3)
            · exact Or.inr (Or.inl h3)
            · exact Or.inr (Or.inr ⟨v, List.mem_cons_of_mem _ hv, hq3⟩)

theorem assocInsert_key_self {β : Type} (mk : β) (upd : β → β)
    (k : List Nat) (l : List (List Nat × β)) :
    ∃ v, (k, v) ∈ assocInsert mk upd k l := by
  induction l with
  | nil => exact ⟨mk, List.mem_singleton.mpr rfl⟩
  | cons p t ih =>
      obtain ⟨k', v'⟩ := p
      simp only [assocInsert]
      by_cases h1 : bytesLt k k' = true
      · rw [if_pos h1]
        exact ⟨mk, List.mem_cons_self _ _⟩
      · rw [if_neg h1]
        by_cases h2 : k = k'
        · rw [if_pos h2]
          subst h2
          exact ⟨upd v', List.mem_cons_self _ _⟩
        · rw [if_neg h2]
          obtain ⟨v, hv⟩ := ih
          exact ⟨v, List.mem_cons_of_mem _ hv⟩

theorem assocInsert_ne_nil {β : Type} (mk : β) (upd : β → β)
    (k : List Nat) (l : List (List Nat × β)) :
    assocInsert mk upd k l ≠ [] := by
  cases l with
  | nil => exact List.cons_ne_nil _ _
  | cons p t =>
      obtain ⟨k', v'⟩ := p
      simp only [assocInsert]
      by_cases h1 : bytesLt k k' = true
      · rw [if_pos h1]
        exact List.cons_ne_nil _ _
      · rw [if_neg h1]
        by_cases h2 : k = k'
        · rw [if_pos h2]
          exact List.cons_ne_nil _ _
        · rw [if_neg h2]
          exact List.cons_ne_nil _ _

theorem assocInsert_pairwise {β : Type} (mk : β) (upd : β → β)
    (k : List Nat) (l : List (List Nat × β))
    (h : l.Pairwise (fun p q => bytesLt p.1 q.1 = true)) :
    (assocInsert mk upd k l).Pairwise
      (fun p q => bytesLt p.1 q.1 = true) := by
  induction l with
  | nil => simp [assocInsert]
  | cons p t ih =>
      obtain ⟨k', v'⟩ := p
      rw [List.pairwise_cons] at h
      simp only [assocInsert]
      by_cases h1 : bytesLt k k' = true
      · rw [if_pos h1, List.pairwise_cons]
        constructor
        · intro q hq
          rcases List.mem_cons.mp hq with h2 | h2
          · subst h2; exact h1
          · exact bytesLt_trans _ _ _ h1 (h.1 q h2)
        · rw [List.pairwise_cons]
          exact h
      · rw [if_neg h1]
        have hk'k : bytesLt k' k = true ∨ k = k' := by
          by_cases h2 : k = k'
          · exact Or.inr h2
          · refine Or.inl (bytesLt_conn k k' ?_ h2)
            cases h4 : bytesLt k k'
            · rfl
            · exact absurd h4 h1
        by_cases h2 : k = k'
        · rw [if_pos h2, List.pairwise_cons]
          subst h2
          exact h
        · rw [if_neg h2, List.pairwise_cons]
          have hk : bytesLt k' k = true := by
            rcases hk'k with h3 | h3
            · exact h3
            · exact absurd h3 h2
          constructor
          · intro q hq
            rcases assocInsert_mem mk upd k t q hq with h3 | h3 | ⟨v, hv, hq3⟩
            · exact h.1 q h3
            · rw [h3]
              exact hk
            · rw [hq3]
              exact hk
          · exact ih h.2

theorem assocInsert_keys_sub {β : Type} (mk : β) (upd : β → β)
    (k : List Nat) (l : List (List Nat × β)) :
    ∀ q ∈ l, ∃ v', (q.1, v') ∈ assocInsert mk upd k l := by
  induction l with
  | nil => intro q hq; cases hq
  | cons p t ih =>
      obtain ⟨k', v'⟩ := p
      intro q hq
      by_cases h1 : bytesLt k k' = true
      · refine ⟨q.2, ?_⟩
        simp only [assocInsert]
        rw [if_pos h1]
        exact List.mem_cons_of_mem _ (by rw [Prod.mk.eta]; exact hq)
      · by_cases h2 : k = k'
        · subst h2
          simp only [assocInsert]
          rw [if_neg h1]
          simp only [if_true]
          rcases List.mem_cons.mp hq with h | h
          · refine ⟨upd v', ?_⟩
            have hk : q.1 = k := by rw [h]
            rw [hk]
            exact List.mem_cons_self _ _
          · exact ⟨q.2, List.mem_cons_of_mem _
              (by rw [Prod.mk.eta]; exact h)⟩
        · simp only [assocInsert]
          rw [if_neg h1, if_neg h2]
          rcases List.mem_cons.mp hq with h | h
          · refine ⟨v', ?_⟩
            have hk : q.1 = k' := by rw [h]
            rw [hk]
            exact List.mem_cons_self _ _
          · obtain ⟨v'', hv''⟩ := ih q h
            exact ⟨v'', List.mem_cons_of_mem _ hv''⟩

/-! ## Tree-building invariants -/

theorem pathMapInsert_blocks (m : PathMap) (path : List Nat)
    (b : VPKEntryBlock_t) :
    ∀ pg ∈ pathMapInsert path b m, ∀ x ∈ pg.2,
      (∃ pg' ∈ m, pg'.1 = pg.1 ∧ x ∈ pg'.2) ∨ (x = b ∧ pg.1 = path) := by
  intro pg hpg x hx
  rcases assocInsert_mem [b] (fun v => v ++ [b]) path m pg hpg with
    h | h | ⟨v, hv, hpg2⟩
  · exact Or.inl ⟨pg, h, rfl, hx⟩
  · rw [h] at hx
    simp only [List.mem_singleton] at hx
    exact Or.inr ⟨hx, by rw [h]⟩
  · rw [hpg2] at hx
    simp only [List.mem_append, List.mem_singleton] at hx
    rcases hx with hx | hx
    · exact Or.inl ⟨(path, v), hv, by rw [hpg2], hx⟩
    · exact Or.inr ⟨hx, by rw [hpg2]⟩

theorem treeInsert_blocks (t : FileTree) (ext path : List Nat)
    (b : VPKEntryBlock_t) :
    ∀ g ∈ treeInsert ext path b t, ∀ pg ∈ g.2, ∀ x ∈ pg.2,
      (∃ g' ∈ t, g'.1 = g.1 ∧ ∃ pg' ∈ g'.2, pg'.1 = pg.1 ∧ x ∈ pg'.2) ∨
      (x = b ∧ g.1 = ext ∧ pg.1 = path) := by
  intro g hg pg hpg x hx
  rcases assocInsert_mem (pathMapInsert path b [])
      (pathMapInsert path b) ext t g hg with h | h | ⟨v, hv, hg2⟩
  · exact Or.inl ⟨g, h, rfl, pg, hpg, rfl, hx⟩
  · rw [h] at hpg
    simp only at hpg
    rcases pathMapInsert_blocks [] path b pg hpg x hx with
      ⟨pg', hpg', _, _⟩ | ⟨hxb, hpgp⟩
    · cases hpg'
    · exact Or.inr ⟨hxb, by rw [h], hpgp⟩
  · rw [hg2] at hpg
    simp only at hpg
    rcases pathMapInsert_blocks v path b pg hpg x hx with
      ⟨pg', hpg', hk, hx'⟩ | ⟨hxb, hpgp⟩
    · exact Or.inl ⟨(ext, v), hv, by rw [hg2], pg', hpg', hk, hx'⟩
    · exact Or.inr ⟨hxb, by rw [hg2], hpgp⟩

theorem buildTreeAux_blocks (P : VPKEntryBlock_t → List Nat → List Nat → Prop) :
    ∀ (E : List VPKEntryBlock_t) (acc : FileTree),
      (∀ g ∈ acc, ∀ pg ∈ g.2, ∀ x ∈ pg.2, P x g.1 pg.1) →
      (∀ e ∈ E, P e (splitEntry e.m_EntryPath).ext
        (splitEntry e.m_EntryPath).path) →
      ∀ g ∈ E.foldl (fun t e =>
          treeInsert (splitEntry e.m_EntryPath).ext
            (splitEntry e.m_EntryPath).path e t) acc,
        ∀ pg ∈ g.2, ∀ x ∈ pg.2, P x g.1 pg.1 := by
  intro E
  induction E with
  | nil =>
      intro acc hacc hE
      simpa using hacc
  | cons e E' ih =>
      intro acc hacc hE
      simp only [List.foldl_cons]
      apply ih
      · intro g hg pg hpg x hx
        rcases treeInsert_blocks acc _ _ e g hg pg hpg x hx with
          ⟨g', hg', hk1, pg', hpg', hk2, hx'⟩ | ⟨hxe, hk1, hk2⟩
        · rw [← hk1, ← hk2]
          exact hacc g' hg' pg' hpg' x hx'
        · rw [hxe, hk1, hk2]
          exact hE e (List.mem_cons_self _ _)
      · intro e' he'
        exact hE e' (List.mem_cons_of_mem _ he')

theorem buildTree_blocks (E : List VPKEntryBlock_t) :
    ∀ g ∈ buildTree E, ∀ pg ∈ g.2, ∀ x ∈ pg.2,
      x ∈ E ∧ (splitEntry x.m_EntryPath).ext = g.1 ∧
        (splitEntry x.m_EntryPath).path = pg.1 := by
  have h := buildTreeAux_blocks
    (fun x ext path => x ∈ E ∧ (splitEntry x.m_EntryPath).ext = ext ∧
      (splitEntry x.m_EntryPath).path = path) E []
    (by intro g hg; cases hg)
    (by intro e he; exact ⟨he, rfl, rfl⟩)
  exact h

theorem pathMapInsert_vals (m : PathMap) (path : List Nat)
    (b : VPKEntryBlock_t) :
    ∀ pg ∈ pathMapInsert path b m,
      pg ∈ m ∨ pg = (path, [b]) ∨
      ∃ v, (path, v) ∈ m ∧ pg = (path, v ++ [b]) :=
  assocInsert_mem [b] (fun v => v ++ [b]) path m

theorem pathMapInsert_pairwise (m : PathMap) (path : List Nat)
    (b : VPKEntryBlock_t)
    (h : m.Pairwise (fun p q => bytesLt p.1 q.1 = true)) :
    (pathMapInsert path b m).Pairwise
      (fun p q => bytesLt p.1 q.1 = true) :=
  assocInsert_pairwise [b] (fun v => v ++ [b]) path m h

theorem buildTree_sorted (E : List VPKEntryBlock_t) :
    (buildTree E).Pairwise (fun g g' => bytesLt g.1 g'.1 = true) ∧
    ∀ g ∈ buildTree E,
      g.2.Pairwise (fun p q => bytesLt p.1 q.1 = true) := by
  suffices h : ∀ (E' : List VPKEntryBlock_t) (acc : FileTree),
      acc.Pairwise (fun g g' => bytesLt g.1 g'.1 = true) →
      (∀ g ∈ acc, g.2.Pairwise (fun p q => bytesLt p.1 q.1 = true)) →
      (E'.foldl (fun t e =>
          treeInsert (splitEntry e.m_EntryPath).ext
            (splitEntry e.m_EntryPath).path e t) acc).Pairwise
        (fun g g' => bytesLt g.1 g'.1 = true) ∧
      ∀ g ∈ E'.foldl (fun t e =>
          treeInsert (splitEntry e.m_EntryPath).ext
            (splitEntry e.m_EntryPath).path e t) acc,
        g.2.Pairwise (fun p q => bytesLt p.1 q.1 = true) by
    exact h E [] List.Pairwise.nil (by intro g hg; cases hg)
  intro E'
  induction E' with
  | nil =>
      intro acc h1 h2
      exact ⟨h1, h2⟩
  | cons e E'' ih =>
      intro acc h1 h2
      simp only [List.foldl_cons]
      apply ih
      · exact assocInsert_pairwise _ _ _ _ h1
      · intro g hg
        rcases assocInsert_mem (pathMapInsert (splitEntry e.m_EntryPath).path e [])
            (pathMapInsert (splitEntry e.m_EntryPath).path e)
            (splitEntry e.m_EntryPath).ext acc g hg with h | h | ⟨v, hv, hg2⟩
        · exact h2 g h
        · rw [h]
          exact pathMapInsert_pairwise [] _ _ List.Pairwise.nil
        · rw [hg2]
          exact pathMapInsert_pairwise v _ _ (h2 (_, v) hv)

theorem buildTree_nonempty (E : List VPKEntryBlock_t) :
    ∀ g ∈ buildTree E, g.2 ≠ [] ∧ ∀ pg ∈ g.2, pg.2 ≠ [] := by
  suffices h : ∀ (E' : List VPKEntryBlock_t) (acc : FileTree),
      (∀ g ∈ acc, g.2 ≠ [] ∧ ∀ pg ∈ g.2, pg.2 ≠ []) →
      ∀ g ∈ E'.foldl (fun t e =>
          treeInsert (splitEntry e.m_EntryPath).ext
            (splitEntry e.m_EntryPath).path e t) acc,
        g.2 ≠ [] ∧ ∀ pg ∈ g.2, pg.2 ≠ [] by
    exact h E [] (by intro g hg; cases hg)
  intro E'
  induction E' with
  | nil =>
      intro acc hacc
      simpa using hacc
  | cons e E'' ih =>
      intro acc hacc
      simp only [List.foldl_cons]
      apply ih
      intro g hg
      rcases assocInsert_mem (pathMapInsert (splitEntry e.m_EntryPath).path e [])
          (pathMapInsert (splitEntry e.m_EntryPath).path e)
          (splitEntry e.m_EntryPath).ext acc g hg with h | h | ⟨v, hv, hg2⟩
      · exact hacc g h
      · rw [h]
        refine ⟨by simp [pathMapInsert, assocInsert], ?_⟩
        intro pg hpg
        simp only [pathMapInsert, assocInsert, List.mem_singleton] at hpg
        rw [hpg]
        exact List.cons_ne_nil _ _
      · rw [hg2]
        refine ⟨assocInsert_ne_nil _ _ _ _, ?_⟩
        intro pg hpg
        rcases pathMapInsert_vals v _ e pg hpg with h3 | h3 | ⟨v', hv', h3⟩
        · exact (hacc (_, v) hv).2 pg h3
        · rw [h3]
          exact List.cons_ne_nil _ _
        · rw [h3]
          simp

theorem buildTree_key_present (E : List VPKEntryBlock_t)
    (e : VPKEntryBlock_t) (he : e ∈ E) :
    ∃ v, ((splitEntry e.m_EntryPath).ext, v) ∈ buildTree E := by
  suffices h : ∀ (E' : List VPKEntryBlock_t) (acc : FileTree),
      (e ∈ E' ∨ ∃ v, ((splitEntry e.m_EntryPath).ext, v) ∈ acc) →
      ∃ v, ((splitEntry e.m_EntryPath).ext, v) ∈
        E'.foldl (fun t x =>
          treeInsert (splitEntry x.m_EntryPath).ext
            (splitEntry x.m_EntryPath).path x t) acc by
    exact h E [] (Or.inl he)
  intro E'
  induction E' with
  | nil =>
      intro acc hacc
      rcases hacc with h | h
      · cases h
      · simpa using h
  | cons x E'' ih =>
      intro acc hacc
      simp only [List.foldl_cons]
      apply ih
      rcases hacc with h | h
      · rcases List.mem_cons.mp h with h1 | h1
        · subst h1
          exact Or.inr (assocInsert_key_self _ _ _ acc)
        · exact Or.inl h1
      · obtain ⟨v, hv⟩ := h
        right
        have := assocInsert_keys_sub
          (pathMapInsert (splitEntry x.m_EntryPath).path x [])
          (pathMapInsert (splitEntry x.m_EntryPath).path x)
          (splitEntry x.m_EntryPath).ext acc
          ((splitEntry e.m_EntryPath).ext, v) hv
        exact this

/-! ## Rebuilding a tree from its flattened blocks -/

theorem foldIns_same_key {β : Type} (keyF : VPKEntryBlock_t → List Nat)
    (mkF : VPKEntryBlock_t → β) (updF : VPKEntryBlock_t → β → β)
    (k : List Nat) :
    ∀ (items : List VPKEntryBlock_t) (acc : List (List Nat × β)) (v : β),
      (∀ it ∈ items, keyF it = k) →
      (∀ q ∈ acc, bytesLt q.1 k = true) →
      items.foldl (fun a it => assocInsert (mkF it) (updF it) (keyF it) a)
        (acc ++ [(k, v)]) =
      acc ++ [(k, items.foldl (fun v it => updF it v) v)] := by
  intro items
  induction items with
  | nil => intro acc v _ _; rfl
  | cons it ts ih =>
      intro acc v hkeys hacc
      simp only [List.foldl_cons]
      rw [hkeys it (List.mem_cons_self _ _),
        assocInsert_update_last _ _ _ _ _ hacc]
      exact ih acc (updF it v)
        (fun x hx => hkeys x (List.mem_cons_of_mem _ hx)) hacc

theorem foldIns_groups {β : Type} (keyF : VPKEntryBlock_t → List Nat)
    (mkF : VPKEntryBlock_t → β) (updF : VPKEntryBlock_t → β → β)
    (emp : β) :
    ∀ (groups : List (List Nat × List VPKEntryBlock_t))
      (acc : List (List Nat × β)),
      groups.Pairwise (fun g g' => bytesLt g.1 g'.1 = true) →
      (∀ g ∈ groups, g.2 ≠ []) →
      (∀ g ∈ groups, ∀ it ∈ g.2, keyF it = g.1) →
      (∀ q ∈ acc, ∀ g ∈ groups, bytesLt q.1 g.1 = true) →
      ((groups.map Prod.snd).flatten).foldl
        (fun a it => assocInsert (mkF it) (updF it) (keyF it) a) acc =
      acc ++ groups.map (fun g => (g.1, groupValue emp mkF updF g.2)) := by
  intro groups
  induction groups with
  | nil =>
      intro acc _ _ _ _
      simp
  | cons g gs ih =>
      intro acc hpw hne hkeys hacc
      obtain ⟨k, items⟩ := g
      have hne1 : items ≠ [] := hne (k, items) (List.mem_cons_self _ _)
      match items, hne1 with
      | i :: ts, _ =>
        rw [List.pairwise_cons] at hpw
        have hacc1 : ∀ q ∈ acc, bytesLt q.1 k = true :=
          fun q hq => hacc q hq (k, i :: ts) (List.mem_cons_self _ _)
        have hkey1 : ∀ it ∈ (i :: ts : List VPKEntryBlock_t), keyF it = k :=
          hkeys (k, i :: ts) (List.mem_cons_self _ _)
        simp only [List.map_cons, List.flatten_cons, List.foldl_append,
          List.foldl_cons]
        rw [hkey1 i (List.mem_cons_self _ _),
          assocInsert_append _ _ _ _ hacc1,
          foldIns_same_key keyF mkF updF k ts acc (mkF i)
            (fun x hx => hkey1 x (List.mem_cons_of_mem _ hx)) hacc1]
        rw [ih (acc ++ [(k, ts.foldl (fun v it => updF it v) (mkF i))])
          hpw.2
          (fun g hg => hne g (List.mem_cons_of_mem _ hg))
          (fun g hg => hkeys g (List.mem_cons_of_mem _ hg))
          ?_]
        · simp [groupValue, List.append_assoc]
        · intro q hq g' hg'
          rcases List.mem_append.mp hq with h | h
          · exact hacc q h g' (List.mem_cons_of_mem _ hg')
          · simp only [List.mem_singleton] at h
            rw [h]
            exact hpw.1 g' hg'

theorem foldl_push (l : List VPKEntryBlock_t) :
    ∀ init : List VPKEntryBlock_t,
      l.foldl (fun v x => v ++ [x]) init = init ++ l := by
  induction l with
  | nil => intro init; simp
  | cons x xs ih =>
      intro init
      simp only [List.foldl_cons]
      rw [ih]
      simp

theorem groupValue_blocks (items : List VPKEntryBlock_t)
    (hne : items ≠ []) :
    groupValue ([] : List VPKEntryBlock_t) (fun b => [b])
      (fun b v => v ++ [b]) items = items := by
  match items, hne with
  | i :: ts, _ =>
      show ts.foldl (fun v x => v ++ [x]) [i] = i :: ts
      rw [foldl_push]
      rfl

theorem pathMap_rebuild (pmap : PathMap)
    (hpw : pmap.Pairwise (fun p q => bytesLt p.1 q.1 = true))
    (hne : ∀ pg ∈ pmap, pg.2 ≠ [])
    (hkeys : ∀ pg ∈ pmap, ∀ b ∈ pg.2,
      (splitEntry b.m_EntryPath).path = pg.1) :
    ((pmap.map Prod.snd).flatten).foldl
      (fun a b => pathMapInsert (splitEntry b.m_EntryPath).path b a) []
      = pmap := by
  have hmain := foldIns_groups
    (fun b => (splitEntry b.m_EntryPath).path)
    (fun b => [b]) (fun b v => v ++ [b])
    ([] : List VPKEntryBlock_t) pmap []
    hpw hne hkeys (by intro q hq; cases hq)
  have hmap : pmap.map (fun g =>
      (g.1, groupValue ([] : List VPKEntryBlock_t) (fun b => [b])
        (fun b v => v ++ [b]) g.2)) = pmap := by
    have : ∀ g ∈ pmap, (g.1, groupValue ([] : List VPKEntryBlock_t)
        (fun b => [b]) (fun b v => v ++ [b]) g.2) = g := by
      intro g hg
      rw [groupValue_blocks g.2 (hne g hg)]
    rw [List.map_congr_left this]
    simp
  rw [hmap] at hmain
  simpa using hmain

theorem groupValue_pathMap (i : VPKEntryBlock_t)
    (ts : List VPKEntryBlock_t) :
    groupValue ([] : PathMap)
      (fun b => pathMapInsert (splitEntry b.m_EntryPath).path b [])
      (fun b v => pathMapInsert (splitEntry b.m_EntryPath).path b v)
      (i :: ts) =
    (i :: ts).foldl
      (fun a b => pathMapInsert (splitEntry b.m_EntryPath).path b a) [] :=
  rfl

theorem buildTree_flattenTree (t : FileTree)
    (hpw : t.Pairwise (fun g g' => bytesLt g.1 g'.1 = true))
    (hinner : ∀ g ∈ t, g.2.Pairwise (fun p q => bytesLt p.1 q.1 = true))
    (hne : ∀ g ∈ t, g.2 ≠ [] ∧ ∀ pg ∈ g.2, pg.2 ≠ [])
    (hkeys : ∀ g ∈ t, ∀ pg ∈ g.2, ∀ b ∈ pg.2,
      (splitEntry b.m_EntryPath).ext = g.1 ∧
        (splitEntry b.m_EntryPath).path = pg.1) :
    buildTree (flattenTree t) = t := by
  have hmain := foldIns_groups
    (fun b => (splitEntry b.m_EntryPath).ext)
    (fun b => pathMapInsert (splitEntry b.m_EntryPath).path b [])
    (fun b v => pathMapInsert (splitEntry b.m_EntryPath).path b v)
    ([] : PathMap)
    (t.map (fun g => (g.1, (g.2.map Prod.snd).flatten))) []
    ?_ ?_ ?_ (by intro q hq; cases hq)
  · have hflat : ((t.map (fun g =>
        (g.1, (g.2.map Prod.snd).flatten))).map Prod.snd).flatten =
        flattenTree t := by
      unfold flattenTree
      rw [List.map_map]
      rfl
    rw [hflat] at hmain
    have hmap : (t.map (fun g => (g.1, (g.2.map Prod.snd).flatten))).map
        (fun g => (g.1, groupValue ([] : PathMap)
          (fun b => pathMapInsert (splitEntry b.m_EntryPath).path b [])
          (fun b v => pathMapInsert (splitEntry b.m_EntryPath).path b v)
          g.2)) = t := by
      rw [List.map_map]
      have : ∀ g ∈ t, ((fun g => (g.1, groupValue ([] : PathMap)
          (fun b => pathMapInsert (splitEntry b.m_EntryPath).path b [])
          (fun b v => pathMapInsert (splitEntry b.m_EntryPath).path b v)
          g.2)) ∘ (fun g => (g.1, (g.2.map Prod.snd).flatten))) g = g := by
        intro g hg
        simp only [Function.comp]
        have hne2 : (g.2.map Prod.snd).flatten ≠ [] := by
          obtain ⟨hg1, hg2⟩ := hne g hg
          match g2 : g.2, hg1 with
          | pg :: pgs, _ =>
              simp only [List.map_cons, List.flatten_cons]
              intro hc
              rcases List.append_eq_nil.mp hc with ⟨hc1, _⟩
              exact hg2 pg (by rw [g2]; exact List.mem_cons_self _ _) hc1
        match h2 : (g.2.map Prod.snd).flatten, hne2 with
        | i :: ts, _ =>
            rw [groupValue_pathMap, ← h2]
            rw [pathMap_rebuild g.2 (hinner g hg) (hne g hg).2
              (fun pg hpg b hb => (hkeys g hg pg hpg b hb).2)]
      rw [List.map_congr_left this]
      simp
    rw [hmap] at hmain
    have hfold : buildTree (flattenTree t) =
        (flattenTree t).foldl (fun a b =>
          assocInsert (pathMapInsert (splitEntry b.m_EntryPath).path b [])
            (pathMapInsert (splitEntry b.m_EntryPath).path b)
            (splitEntry b.m_EntryPath).ext a) [] := rfl
    rw [hfold]
    simpa using hmain
  · rw [List.pairwise_map]
    exact hpw
  · intro g hg
    rcases List.mem_map.mp hg with ⟨g0, hg0, hge⟩
    obtain ⟨hg1, hg2⟩ := hne g0 hg0
    rw [← hge]
    simp only []
    match g2 : g0.2, hg1 with
    | pg :: pgs, _ =>
        simp only [List.map_cons, List.flatten_cons]
        intro hc
        rcases List.append_eq_nil.mp hc with ⟨hc1, _⟩
        exact hg2 pg (by rw [g2]; exact List.mem_cons_self _ _) hc1
  · intro g hg it hit
    rcases List.mem_map.mp hg with ⟨g0, hg0, hge⟩
    rw [← hge] at hit ⊢
    simp only [] at hit ⊢
    rcases List.mem_flatten.mp hit with ⟨blocks, hbl, hitb⟩
    rcases List.mem_map.mp hbl with ⟨pg, hpg, hpge⟩
    have := hkeys g0 hg0 pg hpg it (by rw [hpge]; exact hitb)
    exact this.1

/-! ## Descriptor encode/decode lemmas -/

theorem encodeDesc_length (d : VPKChunkDescriptor_t) :
    (encodeDesc d).length = 30 := by
  simp [encodeDesc, leBytes_length]

theorem decodeDesc_take (bs : List Nat) :
    decodeDesc (bs.take 30) = decodeDesc bs := by
  unfold decodeDesc
  simp [List.drop_take, List.take_take]

theorem decodeDesc_encode (d : VPKChunkDescriptor_t) (rest : List Nat) :
    decodeDesc (encodeDesc d ++ rest) = reduceDesc d := by
  have hbs : encodeDesc d ++ rest =
      leBytes 4 d.m_nLoadFlags ++ (leBytes 2 d.m_nTextureFlags ++
      (leBytes 8 d.m_nPackFileOffset ++ (leBytes 8 d.m_nCompressedSize ++
      (leBytes 8 d.m_nUncompressedSize ++ rest)))) := by
    simp [encodeDesc, List.append_assoc]
  have hd4 : (encodeDesc d ++ rest).drop 4 =
      leBytes 2 d.m_nTextureFlags ++
      (leBytes 8 d.m_nPackFileOffset ++ (leBytes 8 d.m_nCompressedSize ++
      (leBytes 8 d.m_nUncompressedSize ++ rest))) := by
    rw [hbs]
    exact List.drop_left' (leBytes_length 4 _)
  have hd6 : (encodeDesc d ++ rest).drop 6 =
      leBytes 8 d.m_nPackFileOffset ++ (leBytes 8 d.m_nCompressedSize ++
      (leBytes 8 d.m_nUncompressedSize ++ rest)) := by
    have h := (List.drop_drop 2 4 (encodeDesc d ++ rest)).symm
    rw [show (2 + 4 : Nat) = 6 from rfl] at h
    rw [h, hd4]
    exact List.drop_left' (leBytes_length 2 _)
  have hd14 : (encodeDesc d ++ rest).drop 14 =
      leBytes 8 d.m_nCompressedSize ++
      (leBytes 8 d.m_nUncompressedSize ++ rest) := by
    have h := (List.drop_drop 8 6 (encodeDesc d ++ rest)).symm
    rw [show (8 + 6 : Nat) = 14 from rfl] at h
    rw [h, hd6]
    exact List.drop_left' (leBytes_length 8 _)
  have hd22 : (encodeDesc d ++ rest).drop 22 =
      leBytes 8 d.m_nUncompressedSize ++ rest := by
    have h := (List.drop_drop 8 14 (encodeDesc d ++ rest)).symm
    rw [show (8 + 14 : Nat) = 22 from rfl] at h
    rw [h, hd14]
    exact List.drop_left' (leBytes_length 8 _)
  have f1 : leVal ((encodeDesc d ++ rest).take 4) =
      d.m_nLoadFlags % 2 ^ 32 := by
    rw [hbs, List.take_left' (leBytes_length 4 _), leVal_leBytes]
    norm_num
  have f2 : leVal (((encodeDesc d ++ rest).drop 4).take 2) =
      d.m_nTextureFlags % 2 ^ 16 := by
    rw [hd4, List.take_left' (leBytes_length 2 _), leVal_leBytes]
    norm_num
  have f3 : leVal (((encodeDesc d ++ rest).drop 6).take 8) =
      d.m_nPackFileOffset % 2 ^ 64 := by
    rw [hd6, List.take_left' (leBytes_length 8 _), leVal_leBytes]
    norm_num
  have f4 : leVal (((encodeDesc d ++ rest).drop 14).take 8) =
      d.m_nCompressedSize % 2 ^ 64 := by
    rw [hd14, List.take_left' (leBytes_length 8 _), leVal_leBytes]
    norm_num
  have f5 : leVal (((encodeDesc d ++ rest).drop 22).take 8) =
      d.m_nUncompressedSize % 2 ^ 64 := by
    rw [hd22, List.take_left' (leBytes_length 8 _), leVal_leBytes]
    norm_num
  unfold decodeDesc reduceDesc
  rw [f1, f2, f3, f4, f5]

theorem encodeDesc_reduce (d : VPKChunkDescriptor_t) :
    encodeDesc (reduceDesc d) = encodeDesc d := by
  have l1 : leBytes 4 (d.m_nLoadFlags % 2 ^ 32) = leBytes 4 d.m_nLoadFlags := by
    rw [show (2 : Nat) ^ 32 = 256 ^ 4 by norm_num, leBytes_mod]
  have l2 : leBytes 2 (d.m_nTextureFlags % 2 ^ 16) =
      leBytes 2 d.m_nTextureFlags := by
    rw [show (2 : Nat) ^ 16 = 256 ^ 2 by norm_num, leBytes_mod]
  have l3 : leBytes 8 (d.m_nPackFileOffset % 2 ^ 64) =
      leBytes 8 d.m_nPackFileOffset := by
    rw [show (2 : Nat) ^ 64 = 256 ^ 8 by norm_num, leBytes_mod]
  have l4 : leBytes 8 (d.m_nCompressedSize % 2 ^ 64) =
      leBytes 8 d.m_nCompressedSize := by
    rw [show (2 : Nat) ^ 64 = 256 ^ 8 by norm_num, leBytes_mod]
  have l5 : leBytes 8 (d.m_nUncompressedSize % 2 ^ 64) =
      leBytes 8 d.m_nUncompressedSize := by
    rw [show (2 : Nat) ^ 64 = 256 ^ 8 by norm_num, leBytes_mod]
  simp only [encodeDesc, reduceDesc, l1, l2, l3, l4, l5]

theorem encodeDescList_reduce (ds : List VPKChunkDescriptor_t) :
    encodeDescList (ds.map reduceDesc) = encodeDescList ds := by
  induction ds with
  | nil => rfl
  | cons d t ih =>
      cases t with
      | nil => simp [encodeDescList, encodeDesc_reduce]
      | cons d' t' =>
          simp only [List.map_cons] at ih ⊢
          simp only [encodeDescList, encodeDesc_reduce]
          rw [ih]

/-! ## Parser lemmas -/

theorem readStr_encode (s rest : List Nat) (h : ¬ 0 ∈ s) :
    readStr (s ++ 0 :: rest) = (s, rest) := by
  revert h
  induction s with
  | nil =>
      intro h
      show readStr (0 :: rest) = ([], rest)
      unfold readStr
      simp
  | cons c cs ih =>
      intro h
      have hc : ¬ c = 0 := by
        intro hc0
        exact h (by simp [hc0])
      have hcs : ¬ 0 ∈ cs := fun hm => h (List.mem_cons_of_mem _ hm)
      have ihr := ih hcs
      unfold readStr at ihr ⊢
      have ih1 : List.takeWhile (fun x => decide (x ≠ 0))
          (cs ++ 0 :: rest) = cs := congrArg Prod.fst ihr
      have ih2 : List.drop 1 (List.dropWhile (fun x => decide (x ≠ 0))
          (cs ++ 0 :: rest)) = rest := congrArg Prod.snd ihr
      rw [Prod.ext_iff]
      constructor
      · show ((c :: (cs ++ 0 :: rest)).takeWhile fun x => decide (x ≠ 0)) =
          c :: cs
        rw [List.takeWhile_cons]
        simp only [decide_eq_true_eq]
        rw [if_pos hc, ih1]
      · show (((c :: (cs ++ 0 :: rest)).dropWhile fun x =>
          decide (x ≠ 0)).drop 1) = rest
        rw [List.dropWhile_cons]
        simp only [decide_eq_true_eq]
        rw [if_pos hc]
        exact ih2

theorem encodeDescList_length (ds : List VPKChunkDescriptor_t) :
    (encodeDescList ds).length = 32 * ds.length := by
  induction ds with
  | nil => rfl
  | cons d t ih =>
      cases t with
      | nil => simp [encodeDescList, encodeDesc_length, leBytes_length]
      | cons d' t' =>
          simp only [encodeDescList, List.length_append, encodeDesc_length,
            leBytes_length, List.length_cons] at ih ⊢
          omega

theorem readDescs_encode (ds : List VPKChunkDescriptor_t) :
    ∀ (fuel : Nat) (rest : List Nat), ds ≠ [] → ds.length ≤ fuel →
      readDescs fuel (encodeDescList ds ++ rest) =
        some (ds.map reduceDesc, rest) := by
  induction ds with
  | nil => intro fuel rest hne _; exact absurd rfl hne
  | cons d t ih =>
      intro fuel rest hne hfuel
      match fuel, hfuel with
      | f + 1, hf =>
        cases t with
        | nil =>
            have hbs : encodeDescList [d] ++ rest =
                encodeDesc d ++ (leBytes 2 PACKFILEINDEX_END ++ rest) := by
              simp [encodeDescList, List.append_assoc]
            have hlen : (encodeDescList [d] ++ rest).length = 32 + rest.length := by
              simp [encodeDescList_length]
            have hd30 : (encodeDescList [d] ++ rest).drop 30 =
                leBytes 2 PACKFILEINDEX_END ++ rest := by
              rw [hbs]
              exact List.drop_left' (encodeDesc_length d)
            have hmarker : leVal (((encodeDescList [d] ++ rest).drop 30).take 2) =
                PACKFILEINDEX_END := by
              rw [hd30, List.take_left' (leBytes_length 2 _), leVal_leBytes]
              decide
            have hd32 : (encodeDescList [d] ++ rest).drop 32 = rest := by
              have h := (List.drop_drop 2 30 (encodeDescList [d] ++ rest)).symm
              rw [show (2 + 30 : Nat) = 32 from rfl] at h
              rw [h, hd30]
              exact List.drop_left' (leBytes_length 2 _)
            simp only [readDescs]
            rw [if_neg (by rw [hlen]; omega), if_pos hmarker, hd32,
              decodeDesc_take, hbs, decodeDesc_encode]
            rfl
        | cons d2 t2 =>
            have hbs : encodeDescList (d :: d2 :: t2) ++ rest =
                encodeDesc d ++ (leBytes 2 PACKFILEINDEX_SEP ++
                  (encodeDescList (d2 :: t2) ++ rest)) := by
              simp only [encodeDescList, List.append_assoc]
            have hlen : (encodeDescList (d :: d2 :: t2) ++ rest).length =
                32 * (t2.length + 2) + rest.length := by
              simp [encodeDescList_length]
            have hd30 : (encodeDescList (d :: d2 :: t2) ++ rest).drop 30 =
                leBytes 2 PACKFILEINDEX_SEP ++
                  (encodeDescList (d2 :: t2) ++ rest) := by
              rw [hbs]
              exact List.drop_left' (encodeDesc_length d)
            have hmarker : leVal (((encodeDescList (d :: d2 :: t2) ++
                rest).drop 30).take 2) = PACKFILEINDEX_SEP := by
              rw [hd30, List.take_left' (leBytes_length 2 _), leVal_leBytes]
              decide
            have hd32 : (encodeDescList (d :: d2 :: t2) ++ rest).drop 32 =
                encodeDescList (d2 :: t2) ++ rest := by
              have h := (List.drop_drop 2 30
                (encodeDescList (d :: d2 :: t2) ++ rest)).symm
              rw [show (2 + 30 : Nat) = 32 from rfl] at h
              rw [h, hd30]
              exact List.drop_left' (leBytes_length 2 _)
            have hrec := ih f rest (List.cons_ne_nil _ _) (by
              simp only [List.length_cons] at hf ⊢
              omega)
            simp only [readDescs]
            rw [if_neg (by rw [hlen]; omega), if_neg (by
              rw [hmarker]; decide), hd32, hrec,
              decodeDesc_take, hbs, decodeDesc_encode]
            rfl

theorem read8_fields (A B C R : List Nat) (lA : A.length = 4)
    (lB : B.length = 2) (lC : C.length = 2) :
    (A ++ (B ++ (C ++ R))).take 4 = A ∧
    ((A ++ (B ++ (C ++ R))).drop 4).take 2 = B ∧
    ((A ++ (B ++ (C ++ R))).drop 6).take 2 = C ∧
    (A ++ (B ++ (C ++ R))).drop 8 = R ∧
    (A ++ (B ++ (C ++ R))).length = 8 + R.length := by
  have hd4 : (A ++ (B ++ (C ++ R))).drop 4 = B ++ (C ++ R) :=
    List.drop_left' lA
  have hd6 : (A ++ (B ++ (C ++ R))).drop 6 = C ++ R := by
    have h := (List.drop_drop 2 4 (A ++ (B ++ (C ++ R)))).symm
    rw [show (4 + 2 : Nat) = 6 from rfl] at h
    rw [h, hd4]
    exact List.drop_left' lB
  have hd8 : (A ++ (B ++ (C ++ R))).drop 8 = R := by
    have h := (List.drop_drop 2 6 (A ++ (B ++ (C ++ R)))).symm
    rw [show (6 + 2 : Nat) = 8 from rfl] at h
    rw [h, hd6]
    exact List.drop_left' lC
  refine ⟨List.take_left' lA, ?_, ?_, hd8, ?_⟩
  · rw [hd4]
    exact List.take_left' lB
  · rw [hd6]
    exact List.take_left' lC
  · simp only [List.length_append, lA, lB, lC]
    omega

theorem readBlocks_step_core (f : Nat) (ext path fn : List Nat)
    (crc idx : Nat) (ds : List VPKChunkDescriptor_t) (X : List Nat)
    (hfn : fn ≠ []) (hfn0 : ¬ 0 ∈ fn) (hds : ds ≠ [])
    (hfuel : ds.length ≤ f) :
    readBlocks (f + 1) ext path
      (fn ++ 0 :: (leBytes 4 crc ++ (leBytes 2 0 ++
        (leBytes 2 idx ++ (encodeDescList ds ++ X))))) =
      match readBlocks f ext path X with
      | none => none
      | some r5 => some
          ({ m_nFileCRC := crc % 256 ^ 4
             m_iPreloadSize := 0
             m_iPackFileIndex := idx % 256 ^ 2
             m_PreloadData := []
             m_Fragments := ds.map reduceDesc
             m_EntryPath := joinEntryPath path fn ext } :: r5.1, r5.2) := by
  have hdescs := readDescs_encode ds f X hds hfuel
  generalize hR : encodeDescList ds ++ X = R at hdescs ⊢
  obtain ⟨ht4, ht42, ht62, hd8, hlen⟩ := read8_fields (leBytes 4 crc)
    (leBytes 2 0) (leBytes 2 idx) R (leBytes_length 4 crc)
    (leBytes_length 2 0) (leBytes_length 2 idx)
  have hnlt : ¬ ((leBytes 4 crc ++ (leBytes 2 0 ++
      (leBytes 2 idx ++ R))).length < 8) := by
    rw [hlen]
    omega
  simp only [readBlocks]
  rw [readStr_encode fn _ hfn0]
  simp only []
  rw [if_neg hfn, if_neg hnlt, ht4, ht42, ht62, hd8]
  simp only [leVal_leBytes]
  simp only [Nat.zero_mod]
  rw [if_neg (Nat.not_lt_zero R.length)]
  rw [List.drop_zero, List.take_zero, hdescs]

theorem readBlocks_step (f : Nat) (ext path : List Nat)
    (b : VPKEntryBlock_t) (X : List Nat) (hgb : goodBlock b)
    (hfuel : b.m_Fragments.length ≤ f) :
    readBlocks (f + 1) ext path (encodeBlock b ++ X) =
      match readBlocks f ext path X with
      | none => none
      | some r5 => some (parsedBlock ext path b :: r5.1, r5.2) := by
  obtain ⟨hpre, hfrag, hfn, hfn0⟩ := hgb
  have hbs : encodeBlock b ++ X =
      writeFilename b.m_EntryPath ++ 0 ::
        (leBytes 4 b.m_nFileCRC ++ (leBytes 2 0 ++
        (leBytes 2 b.m_iPackFileIndex ++
          (encodeDescList b.m_Fragments ++ X)))) := by
    rw [encodeBlock, hpre]
    simp [List.append_assoc]
  have h32 : (2 : Nat) ^ 32 = 256 ^ 4 := by norm_num
  have h16 : (2 : Nat) ^ 16 = 256 ^ 2 := by norm_num
  have hpb : parsedBlock ext path b =
      { m_nFileCRC := b.m_nFileCRC % 256 ^ 4
        m_iPreloadSize := 0
        m_iPackFileIndex := b.m_iPackFileIndex % 256 ^ 2
        m_PreloadData := []
        m_Fragments := b.m_Fragments.map reduceDesc
        m_EntryPath :=
          joinEntryPath path (writeFilename b.m_EntryPath) ext } := by
    simp [parsedBlock, hpre, h32, h16]
  rw [hbs, hpb]
  exact readBlocks_step_core f ext path (writeFilename b.m_EntryPath)
    b.m_nFileCRC b.m_iPackFileIndex b.m_Fragments X hfn hfn0 hfrag hfuel

theorem readBlocks_encode (blocks : List VPKEntryBlock_t) :
    ∀ (ext path : List Nat) (fuel : Nat) (rest : List Nat),
      (∀ b ∈ blocks, goodBlock b) →
      ((blocks.map encodeBlock).flatten).length + 1 ≤ fuel →
      readBlocks fuel ext path
        ((blocks.map encodeBlock).flatten ++ 0 :: rest) =
        some (blocks.map (parsedBlock ext path), rest) := by
  induction blocks with
  | nil =>
      intro ext path fuel rest _ hfuel
      match fuel, hfuel with
      | f + 1, hf =>
        show readBlocks (f + 1) ext path ([] ++ 0 :: rest) = some ([], rest)
        simp only [readBlocks]
        have h := readStr_encode [] rest (by simp)
        rw [List.nil_append] at h
        rw [List.nil_append, h]
        simp only []
        rw [if_pos trivial]
  | cons b bs ih =>
      intro ext path fuel rest hgb hfuel
      match fuel, hfuel with
      | f + 1, hf =>
        have hb := hgb b (List.mem_cons_self b bs)
        have hbs' : ∀ x ∈ bs, goodBlock x :=
          fun x hx => hgb x (List.mem_cons_of_mem _ hx)
        have hlenB : (encodeBlock b).length =
            (writeFilename b.m_EntryPath).length + 9 +
              32 * b.m_Fragments.length := by
          simp only [encodeBlock, List.length_append, leBytes_length,
            List.length_cons, List.length_nil, encodeDescList_length]
        have hflen : (((b :: bs).map encodeBlock).flatten).length =
            (encodeBlock b).length +
              ((bs.map encodeBlock).flatten).length := by
          simp
        have hfuelb : b.m_Fragments.length ≤ f := by omega
        have hfuel' : ((bs.map encodeBlock).flatten).length + 1 ≤ f := by
          omega
        have hassoc : (((b :: bs).map encodeBlock).flatten ++ 0 :: rest) =
            encodeBlock b ++ ((bs.map encodeBlock).flatten ++ 0 :: rest) := by
          simp [List.append_assoc]
        rw [hassoc, readBlocks_step f ext path b _ hb hfuelb,
          ih ext path f rest hbs' hfuel']
        simp only [List.map_cons]

theorem readPaths_step (f : Nat) (ext : List Nat)
    (g : List Nat × List VPKEntryBlock_t) (X : List Nat)
    (hp : g.1 ≠ []) (hp0 : ¬ 0 ∈ g.1)
    (hgb : ∀ b ∈ g.2, goodBlock b)
    (hfuel : ((g.2.map encodeBlock).flatten).length + 1 ≤ f) :
    readPaths (f + 1) ext (encodePathGroup g ++ X) =
      match readPaths f ext X with
      | none => none
      | some r3 => some (g.2.map (parsedBlock ext g.1) ++ r3.1, r3.2) := by
  have hbs : encodePathGroup g ++ X =
      g.1 ++ 0 :: ((g.2.map encodeBlock).flatten ++ 0 :: X) := by
    simp [encodePathGroup, List.append_assoc]
  rw [hbs]
  simp only [readPaths]
  rw [readStr_encode g.1 _ hp0]
  simp only []
  rw [if_neg hp, readBlocks_encode g.2 ext g.1 f X hgb hfuel]

theorem readPaths_encode (pm : PathMap) (ext : List Nat) :
    ∀ (fuel : Nat) (rest : List Nat),
      (∀ pg ∈ pm, pg.1 ≠ [] ∧ ¬ 0 ∈ pg.1 ∧ ∀ b ∈ pg.2, goodBlock b) →
      ((pm.map encodePathGroup).flatten).length + 1 ≤ fuel →
      readPaths fuel ext ((pm.map encodePathGroup).flatten ++ 0 :: rest) =
        some ((pm.map (fun pg => pg.2.map (parsedBlock ext pg.1))).flatten,
          rest) := by
  induction pm with
  | nil =>
      intro fuel rest _ hfuel
      match fuel, hfuel with
      | f + 1, hf =>
        show readPaths (f + 1) ext ([] ++ 0 :: rest) = some ([], rest)
        simp only [readPaths]
        have h := readStr_encode [] rest (by simp)
        rw [List.nil_append] at h
        rw [List.nil_append, h]
        simp only []
        rw [if_pos trivial]
  | cons g t ih =>
      intro fuel rest hh hfuel
      match fuel, hfuel with
      | f + 1, hf =>
        have hg := hh g (List.mem_cons_self g t)
        have ht : ∀ pg ∈ t, pg.1 ≠ [] ∧ ¬ 0 ∈ pg.1 ∧
            ∀ b ∈ pg.2, goodBlock b :=
          fun pg hx => hh pg (List.mem_cons_of_mem _ hx)
        have hlenG : (encodePathGroup g).length =
            g.1.length + 2 + ((g.2.map encodeBlock).flatten).length := by
          simp only [encodePathGroup, List.length_append, List.length_cons,
            List.length_nil]
          omega
        have hflen : (((g :: t).map encodePathGroup).flatten).length =
            (encodePathGroup g).length +
              ((t.map encodePathGroup).flatten).length := by
          simp
        have hfuelg : ((g.2.map encodeBlock).flatten).length + 1 ≤ f := by
          omega
        have hfuelt : ((t.map encodePathGroup).flatten).length + 1 ≤ f := by
          omega
        have hassoc : (((g :: t).map encodePathGroup).flatten ++ 0 :: rest) =
            encodePathGroup g ++
              ((t.map encodePathGroup).flatten ++ 0 :: rest) := by
          simp [List.append_assoc]
        rw [hassoc, readPaths_step f ext g _ hg.1 hg.2.1 hg.2.2 hfuelg,
          ih f rest ht hfuelt]
        simp only [List.map_cons, List.flatten_cons]

theorem readExts_step (f : Nat) (g : List Nat × PathMap) (X : List Nat)
    (he : g.1 ≠ []) (he0 : ¬ 0 ∈ g.1)
    (hpm : ∀ pg ∈ g.2, pg.1 ≠ [] ∧ ¬ 0 ∈ pg.1 ∧ ∀ b ∈ pg.2, goodBlock b)
    (hfuel : ((g.2.map encodePathGroup).flatten).length + 1 ≤ f) :
    readExts (f + 1) (encodeExtGroup g ++ X) =
      match readExts f X with
      | none => none
      | some r3 => some
          ((g.2.map (fun pg => pg.2.map (parsedBlock g.1 pg.1))).flatten ++
            r3.1, r3.2) := by
  have hbs : encodeExtGroup g ++ X =
      g.1 ++ 0 :: ((g.2.map encodePathGroup).flatten ++ 0 :: X) := by
    simp [encodeExtGroup, List.append_assoc]
  rw [hbs]
  simp only [readExts]
  rw [readStr_encode g.1 _ he0]
  simp only []
  rw [if_neg he, readPaths_encode g.2 g.1 f X hpm hfuel]

theorem readExts_encode (t : FileTree) :
    ∀ (fuel : Nat) (rest : List Nat),
      (∀ g ∈ t, g.1 ≠ [] ∧ ¬ 0 ∈ g.1 ∧
        ∀ pg ∈ g.2, pg.1 ≠ [] ∧ ¬ 0 ∈ pg.1 ∧ ∀ b ∈ pg.2, goodBlock b) →
      ((t.map encodeExtGroup).flatten).length + 1 ≤ fuel →
      readExts fuel ((t.map encodeExtGroup).flatten ++ 0 :: rest) =
        some (flattenTree (parsedTree t), rest) := by
  induction t with
  | nil =>
      intro fuel rest _ hfuel
      match fuel, hfuel with
      | f + 1, hf =>
        show readExts (f + 1) ([] ++ 0 :: rest) = some ([], rest)
        simp only [readExts]
        have h := readStr_encode [] rest (by simp)
        rw [List.nil_append] at h
        rw [List.nil_append, h]
        simp only []
        rw [if_pos trivial]
  | cons g t' ih =>
      intro fuel rest hh hfuel
      match fuel, hfuel with
      | f + 1, hf =>
        have hg := hh g (List.mem_cons_self g t')
        have ht : ∀ x ∈ t', x.1 ≠ [] ∧ ¬ 0 ∈ x.1 ∧
            ∀ pg ∈ x.2, pg.1 ≠ [] ∧ ¬ 0 ∈ pg.1 ∧ ∀ b ∈ pg.2, goodBlock b :=
          fun x hx => hh x (List.mem_cons_of_mem _ hx)
        have hlenG : (encodeExtGroup g).length =
            g.1.length + 2 + ((g.2.map encodePathGroup).flatten).length := by
          simp only [encodeExtGroup, List.length_append, List.length_cons,
            List.length_nil]
          omega
        have hflen : (((g :: t').map encodeExtGroup).flatten).length =
            (encodeExtGroup g).length +
              ((t'.map encodeExtGroup).flatten).length := by
          simp
        have hfuelg : ((g.2.map encodePathGroup).flatten).length + 1 ≤ f := by
          omega
        have hfuelt : ((t'.map encodeExtGroup).flatten).length + 1 ≤ f := by
          omega
        have hassoc : (((g :: t').map encodeExtGroup).flatten ++ 0 :: rest) =
            encodeExtGroup g ++
              ((t'.map encodeExtGroup).flatten ++ 0 :: rest) := by
          simp [List.append_assoc]
        have hsplit : flattenTree (parsedTree (g :: t')) =
            (g.2.map (fun pg => pg.2.map (parsedBlock g.1 pg.1))).flatten ++
              flattenTree (parsedTree t') := by
          simp [flattenTree, parsedTree, List.map_map, Function.comp_def]
        rw [hassoc, readExts_step f g _ hg.1 hg.2.1 hg.2.2 hfuelg,
          ih f rest ht hfuelt, hsplit]

/-! ## Header lemmas and the full parse of a written directory -/

theorem headerBytes_fields (d : Nat) (body : List Nat) :
    (headerBytes d ++ body).length = 16 + body.length ∧
    leVal ((headerBytes d ++ body).take 4) = VPK_HEADER_MARKER ∧
    leVal (((headerBytes d ++ body).drop 4).take 2) = VPK_MAJOR_VERSION ∧
    leVal (((headerBytes d ++ body).drop 6).take 2) = VPK_MINOR_VERSION ∧
    (headerBytes d ++ body).drop 16 = body := by
  have hbs : headerBytes d ++ body =
      leBytes 4 VPK_HEADER_MARKER ++ (leBytes 2 VPK_MAJOR_VERSION ++
        (leBytes 2 VPK_MINOR_VERSION ++
          (leBytes 4 d ++ (leBytes 4 0 ++ body)))) := by
    simp [headerBytes, List.append_assoc]
  obtain ⟨ht4, ht42, ht62, hd8, hlen⟩ := read8_fields
    (leBytes 4 VPK_HEADER_MARKER) (leBytes 2 VPK_MAJOR_VERSION)
    (leBytes 2 VPK_MINOR_VERSION) (leBytes 4 d ++ (leBytes 4 0 ++ body))
    (leBytes_length 4 _) (leBytes_length 2 _) (leBytes_length 2 _)
  rw [hbs]
  refine ⟨?_, ?_, ?_, ?_, ?_⟩
  · rw [hlen]
    simp only [List.length_append, leBytes_length]
    omega
  · rw [ht4, leVal_leBytes]
    decide
  · rw [ht42, leVal_leBytes]
    decide
  · rw [ht62, leVal_leBytes]
    decide
  · have h := (List.drop_drop 8 8 (leBytes 4 VPK_HEADER_MARKER ++
      (leBytes 2 VPK_MAJOR_VERSION ++ (leBytes 2 VPK_MINOR_VERSION ++
        (leBytes 4 d ++ (leBytes 4 0 ++ body)))))).symm
    rw [show (8 + 8 : Nat) = 16 from rfl] at h
    rw [h, hd8]
    have h2 : (leBytes 4 d ++ (leBytes 4 0 ++ body)).drop 4 =
        leBytes 4 0 ++ body := List.drop_left' (leBytes_length 4 d)
    have h3 := (List.drop_drop 4 4 (leBytes 4 d ++
      (leBytes 4 0 ++ body))).symm
    rw [show (4 + 4 : Nat) = 8 from rfl] at h3
    rw [h3, h2]
    exact List.drop_left' (leBytes_length 4 0)

theorem parseVPKDir_badHeader (bs : List Nat) (h8 : 8 ≤ bs.length)
    (hbad : ¬ (leVal (bs.take 4) = VPK_HEADER_MARKER ∧
      leVal ((bs.drop 4).take 2) = VPK_MAJOR_VERSION ∧
      leVal ((bs.drop 6).take 2) = VPK_MINOR_VERSION)) :
    parseVPKDir bs = none := by
  have h : ¬ (bs.length < 8) := by omega
  simp only [parseVPKDir]
  rw [if_neg h, if_neg hbad]

theorem serializeDir_head (E : List VPKEntryBlock_t) :
    ∃ tl, serializeDir E =
      52 :: 18 :: 170 :: 85 :: 2 :: 0 :: 3 :: 0 :: tl := by
  refine ⟨leBytes 4 ((writeTree (buildTree E) ++ [0]).length) ++
    (leBytes 4 0 ++ (writeTree (buildTree E) ++ [0])), ?_⟩
  have h0 : serializeDir E =
      headerBytes ((writeTree (buildTree E) ++ [0]).length) ++
        (writeTree (buildTree E) ++ [0]) := rfl
  rw [h0]
  have hM : leBytes 4 VPK_HEADER_MARKER = [52, 18, 170, 85] := by decide
  have hmaj : leBytes 2 VPK_MAJOR_VERSION = [2, 0] := by decide
  have hmin : leBytes 2 VPK_MINOR_VERSION = [3, 0] := by decide
  simp [headerBytes, hM, hmaj, hmin, List.append_assoc]

theorem parseVPKDir_serializeDir (E : List VPKEntryBlock_t)
    (hh : ∀ g ∈ buildTree E, g.1 ≠ [] ∧ ¬ 0 ∈ g.1 ∧
      ∀ pg ∈ g.2, pg.1 ≠ [] ∧ ¬ 0 ∈ pg.1 ∧ ∀ b ∈ pg.2, goodBlock b) :
    parseVPKDir (serializeDir E) =
      some (flattenTree (parsedTree (buildTree E))) := by
  have hbody : writeTree (buildTree E) ++ [0] =
      ((buildTree E).map encodeExtGroup).flatten ++ 0 :: [0] := by
    simp [writeTree, List.append_assoc]
  have hfuel0 : ∀ fuel,
      (((buildTree E).map encodeExtGroup).flatten).length + 1 ≤ fuel →
      readExts fuel
        (((buildTree E).map encodeExtGroup).flatten ++ 0 :: [0]) =
        some (flattenTree (parsedTree (buildTree E)), [0]) :=
    fun fuel hf => readExts_encode (buildTree E) fuel [0] hh hf
  set F := ((buildTree E).map encodeExtGroup).flatten with hF
  obtain ⟨hlen, hm, hj, hn, hd16⟩ := headerBytes_fields
    ((F ++ 0 :: [0]).length) (F ++ 0 :: [0])
  have hser : serializeDir E =
      headerBytes ((F ++ 0 :: [0]).length) ++ (F ++ 0 :: [0]) := by
    rw [← hbody]
    rfl
  have hn8 : ¬ ((headerBytes ((F ++ 0 :: [0]).length) ++
      (F ++ 0 :: [0])).length < 8) := by
    rw [hlen]
    omega
  have hfuel : F.length + 1 ≤
      (headerBytes ((F ++ 0 :: [0]).length) ++
        (F ++ 0 :: [0])).length + 1 := by
    rw [hlen]
    simp only [List.length_append, List.length_cons, List.length_nil]
    omega
  have hre := hfuel0 _ hfuel
  simp only [parseVPKDir]
  rw [hser, if_neg hn8, if_pos ⟨hm, hj, hn⟩, hd16, hre]

/-! ## Split and filename lemmas -/

theorem findLastIdx_congr (p : List Nat) (f g : Nat → Bool)
    (h : ∀ c ∈ p, f c = g c) : findLastIdx p f = findLastIdx p g := by
  have haux : ∀ (l : List Nat), (∀ c ∈ l, f c = g c) →
      ∀ i, List.findIdx? f l i = List.findIdx? g l i := by
    intro l
    induction l with
    | nil => intro _ i; rfl
    | cons a t ih =>
        intro hl i
        rw [List.findIdx?_cons, List.findIdx?_cons,
          hl a (List.mem_cons_self a t),
          ih (fun c hc => hl c (List.mem_cons_of_mem _ hc)) (i + 1)]
  unfold findLastIdx
  rw [haux p.reverse (fun c hc => h c (List.mem_reverse.mp hc)) 0]

theorem splitEntry_ext_mem (p : List Nat) (c : Nat)
    (h : c ∈ (splitEntry p).ext) : c ∈ p := by
  simp only [splitEntry] at h
  cases hd : findLastIdx p (fun c => decide (c = 46)) with
  | none =>
      rw [hd] at h
      cases hs : findLastIdx p (fun c => decide (c = 47)) with
      | some s =>
          rw [hs] at h
          simp at h
      | none =>
          rw [hs] at h
          simp at h
  | some d =>
      rw [hd] at h
      cases hs : findLastIdx p (fun c => decide (c = 47)) with
      | some s =>
          rw [hs] at h
          simp only [] at h
          exact List.drop_subset _ _ h
      | none =>
          rw [hs] at h
          simp only [] at h
          exact List.drop_subset _ _ h

theorem splitEntry_fname_mem (p : List Nat) (c : Nat)
    (h : c ∈ (splitEntry p).fname) : c ∈ p := by
  simp only [splitEntry] at h
  cases hs : findLastIdx p (fun c => decide (c = 47)) with
  | some s =>
      cases hd : findLastIdx p (fun c => decide (c = 46)) with
      | some d =>
          rw [hs, hd] at h
          simp only [] at h
          by_cases hc : s + 1 ≤ d
          · rw [if_pos hc] at h
            exact List.drop_subset _ _ (List.take_subset _ _ h)
          · rw [if_neg hc] at h
            exact List.drop_subset _ _ h
      | none =>
          rw [hs, hd] at h
          simp only [] at h
          exact List.drop_subset _ _ h
  | none =>
      cases hd : findLastIdx p (fun c => decide (c = 46)) with
      | some d =>
          rw [hs, hd] at h
          simp only [] at h
          exact List.take_subset _ _ h
      | none =>
          rw [hs, hd] at h
          simp only [] at h
          exact h

theorem splitEntry_path_mem (p : List Nat) (c : Nat)
    (h : c ∈ (splitEntry p).path) : c ∈ p ∨ c = 32 := by
  simp only [splitEntry] at h
  cases hs : findLastIdx p (fun c => decide (c = 47)) with
  | some s =>
      rw [hs] at h
      simp only [] at h
      by_cases hc : p.take s = []
      · rw [if_pos hc] at h
        right
        simpa using h
      · rw [if_neg hc] at h
        left
        exact List.take_subset _ _ h
  | none =>
      rw [hs] at h
      simp only [] at h
      right
      simpa using h

theorem splitEntry_path_ne_nil (p : List Nat) :
    (splitEntry p).path ≠ [] := by
  simp only [splitEntry]
  cases hs : findLastIdx p (fun c => decide (c = 47)) with
  | some s =>
      simp only []
      by_cases hc : p.take s = []
      · rw [if_pos hc]
        simp
      · rw [if_neg hc]
        exact hc
  | none =>
      simp

theorem writeFilename_eq_split (p : List Nat) (h92 : ¬ 92 ∈ p) :
    writeFilename p = (splitEntry p).fname := by
  have hcongr : findLastIdx p (fun c => decide (c = 47 ∨ c = 92)) =
      findLastIdx p (fun c => decide (c = 47)) := by
    apply findLastIdx_congr
    intro c hc
    have hc92 : c ≠ 92 := fun hcc => h92 (hcc ▸ hc)
    by_cases h47 : c = 47
    · simp [h47]
    · simp [h47, hc92]
  simp only [writeFilename, splitEntry, hcongr]
  cases hs : findLastIdx p (fun c => decide (c = 47)) with
  | none =>
      cases hd : findLastIdx p (fun c => decide (c = 46)) with
      | none => simp only []
      | some d => simp only []
  | some s =>
      cases hd : findLastIdx p (fun c => decide (c = 46)) with
      | none => simp only []
      | some d =>
          simp only []
          by_cases hc : s + 1 ≤ d
          · rw [if_neg (by omega : ¬ d < s + 1), if_pos hc]
          · rw [if_pos (by omega : d < s + 1), if_neg hc]

theorem wf_tree_hyp (E : List VPKEntryBlock_t)
    (hwf : ∀ b ∈ E, wfEntry b) :
    ∀ g ∈ buildTree E, g.1 ≠ [] ∧ ¬ 0 ∈ g.1 ∧
      ∀ pg ∈ g.2, pg.1 ≠ [] ∧ ¬ 0 ∈ pg.1 ∧ ∀ b ∈ pg.2, goodBlock b := by
  intro g hg
  obtain ⟨hne, hpgne⟩ := buildTree_nonempty E g hg
  obtain ⟨pg0, hpg0⟩ := List.exists_mem_of_ne_nil _ hne
  obtain ⟨b0, hb0⟩ := List.exists_mem_of_ne_nil _ (hpgne pg0 hpg0)
  obtain ⟨hb0E, hext0, hpath0⟩ := buildTree_blocks E g hg pg0 hpg0 b0 hb0
  obtain ⟨hpre0, hfrag0, h00, h920, hextne0, hfname0, hjoin0⟩ := hwf b0 hb0E
  refine ⟨?_, ?_, ?_⟩
  · rw [← hext0]
    exact hextne0
  · rw [← hext0]
    intro hc
    exact h00 (splitEntry_ext_mem _ _ hc)
  · intro pg hpg
    obtain ⟨b1, hb1⟩ := List.exists_mem_of_ne_nil _ (hpgne pg hpg)
    obtain ⟨hb1E, hext1, hpath1⟩ := buildTree_blocks E g hg pg hpg b1 hb1
    obtain ⟨hpre1, hfrag1, h01, h921, hextne1, hfname1, hjoin1⟩ :=
      hwf b1 hb1E
    refine ⟨?_, ?_, ?_⟩
    · rw [← hpath1]
      exact splitEntry_path_ne_nil _
    · rw [← hpath1]
      intro hc
      rcases splitEntry_path_mem _ _ hc with h | h
      · exact h01 h
      · exact absurd h (by decide)
    · intro b hbm
      obtain ⟨hbE, hext, hpath⟩ := buildTree_blocks E g hg pg hpg b hbm
      obtain ⟨hpre, hfrag, h0p, h92p, hextnep, hfnamep, hjoinp⟩ :=
        hwf b hbE
      refine ⟨hpre, hfrag, ?_, ?_⟩
      · rw [writeFilename_eq_split _ h92p]
        exact hfnamep
      · rw [writeFilename_eq_split _ h92p]
        intro hc
        exact h0p (splitEntry_fname_mem _ _ hc)

/-! ## The parsed tree re-serializes identically -/

theorem parsedBlock_path (E : List VPKEntryBlock_t)
    (hwf : ∀ b ∈ E, wfEntry b) :
    ∀ g ∈ buildTree E, ∀ pg ∈ g.2, ∀ b ∈ pg.2,
      (parsedBlock g.1 pg.1 b).m_EntryPath = b.m_EntryPath := by
  intro g hg pg hpg b hb
  obtain ⟨hbE, hext, hpath⟩ := buildTree_blocks E g hg pg hpg b hb
  obtain ⟨_, _, _, h92, _, _, hjoin⟩ := hwf b hbE
  show joinEntryPath pg.1 (writeFilename b.m_EntryPath) g.1 =
    b.m_EntryPath
  rw [writeFilename_eq_split _ h92, ← hext, ← hpath]
  exact hjoin

theorem encodeBlock_parsed (ext path : List Nat) (b : VPKEntryBlock_t)
    (hpath : (parsedBlock ext path b).m_EntryPath = b.m_EntryPath) :
    encodeBlock (parsedBlock ext path b) = encodeBlock b := by
  have hpath' : joinEntryPath path (writeFilename b.m_EntryPath) ext =
      b.m_EntryPath := hpath
  have h4 : ∀ v : Nat, leBytes 4 (v % 4294967296) = leBytes 4 v :=
    fun v => by
      rw [show (4294967296 : Nat) = 256 ^ 4 by norm_num, leBytes_mod]
  have h2 : ∀ v : Nat, leBytes 2 (v % 65536) = leBytes 2 v := fun v => by
    rw [show (65536 : Nat) = 256 ^ 2 by norm_num, leBytes_mod]
  simp [encodeBlock, parsedBlock, h4, h2, encodeDescList_reduce, hpath']

theorem writeTree_parsedTree (E : List VPKEntryBlock_t)
    (hwf : ∀ b ∈ E, wfEntry b) :
    writeTree (parsedTree (buildTree E)) = writeTree (buildTree E) := by
  have hp := parsedBlock_path E hwf
  unfold writeTree parsedTree
  congr 1
  rw [List.map_map]
  congr 1
  apply List.map_congr_left
  intro g hg
  have hinner : ((g.2.map (fun pg =>
      (pg.1, pg.2.map (parsedBlock g.1 pg.1)))).map encodePathGroup) =
      g.2.map encodePathGroup := by
    rw [List.map_map]
    apply List.map_congr_left
    intro pg hpg
    have hblocks : ((pg.2.map (parsedBlock g.1 pg.1)).map encodeBlock) =
        pg.2.map encodeBlock := by
      rw [List.map_map]
      apply List.map_congr_left
      intro b hb
      exact encodeBlock_parsed g.1 pg.1 b (hp g hg pg hpg b hb)
    calc encodePathGroup (pg.1, pg.2.map (parsedBlock g.1 pg.1))
        = pg.1 ++ [0] ++
            (((pg.2.map (parsedBlock g.1 pg.1)).map encodeBlock).flatten)
            ++ [0] := rfl
      _ = pg.1 ++ [0] ++ ((pg.2.map encodeBlock).flatten) ++ [0] := by
            rw [hblocks]
      _ = encodePathGroup pg := rfl
  calc encodeExtGroup ((fun g =>
      (g.1, g.2.map (fun pg =>
        (pg.1, pg.2.map (parsedBlock g.1 pg.1))))) g)
      = g.1 ++ [0] ++
          (((g.2.map (fun pg =>
            (pg.1, pg.2.map (parsedBlock g.1 pg.1)))).map
              encodePathGroup).flatten) ++ [0] := rfl
    _ = g.1 ++ [0] ++ ((g.2.map encodePathGroup).flatten) ++ [0] := by
          rw [hinner]
    _ = encodeExtGroup g := rfl

theorem buildTree_parsedTree (E : List VPKEntryBlock_t)
    (hwf : ∀ b ∈ E, wfEntry b) :
    buildTree (flattenTree (parsedTree (buildTree E))) =
      parsedTree (buildTree E) := by
  have hp := parsedBlock_path E hwf
  have hsort := buildTree_sorted E
  have hne := buildTree_nonempty E
  have hblk := buildTree_blocks E
  apply buildTree_flattenTree
  · unfold parsedTree
    rw [List.pairwise_map]
    exact hsort.1
  · intro g' hg'
    unfold parsedTree at hg'
    obtain ⟨g, hg, rfl⟩ := List.mem_map.mp hg'
    simp only []
    rw [List.pairwise_map]
    exact hsort.2 g hg
  · intro g' hg'
    unfold parsedTree at hg'
    obtain ⟨g, hg, rfl⟩ := List.mem_map.mp hg'
    obtain ⟨hgne, hpgne⟩ := hne g hg
    constructor
    · simp only []
      intro hcon
      exact hgne (by simpa using hcon)
    · intro pg' hpg'
      simp only [] at hpg'
      obtain ⟨pg, hpg, rfl⟩ := List.mem_map.mp hpg'
      simp only []
      intro hcon
      exact hpgne pg hpg (by simpa using hcon)
  · intro g' hg' pg' hpg' b' hb'
    unfold parsedTree at hg'
    obtain ⟨g, hg, rfl⟩ := List.mem_map.mp hg'
    simp only [] at hpg'
    obtain ⟨pg, hpg, rfl⟩ := List.mem_map.mp hpg'
    simp only [] at hb'
    obtain ⟨b, hb, rfl⟩ := List.mem_map.mp hb'
    have hpathb := hp g hg pg hpg b hb
    obtain ⟨hbE, hext, hpath⟩ := hblk g hg pg hpg b hb
    constructor
    · show (splitEntry (parsedBlock g.1 pg.1 b).m_EntryPath).ext = g.1
      rw [hpathb]
      exact hext
    · show (splitEntry (parsedBlock g.1 pg.1 b).m_EntryPath).path = pg.1
      rw [hpathb]
      exact hpath

/-! ## Claim C1 -/

/-- C1 (counterexample to the claim as stated): the parser accepts the
17-byte directory below (valid header, declared directory size 1, a
single end-of-extensions terminator, one trailing byte), parsing it to
the empty entry list, but re-serializing that result yields a different
byte sequence — the writer recomputes the directory size as 2 and never
reproduces the trailing byte, because `Init` ignores both the
`m_nDirectorySize` field and anything after the terminator. -/
theorem C1_roundtrip_counterexample :
    parseVPKDir
      [52, 18, 170, 85, 2, 0, 3, 0, 1, 0, 0, 0, 0, 0, 0, 0, 0] =
      some [] ∧
    serializeDir [] ≠
      [52, 18, 170, 85, 2, 0, 3, 0, 1, 0, 0, 0, 0, 0, 0, 0, 0] := by
  constructor
  · rfl
  · decide

/-- C1 (amended): on directory files freshly produced by
`BuildDirectoryFile` from well-formed entries, parsing succeeds and
re-serializing the parsed entry list is byte-identical — i.e. the
round trip of the claim holds for every byte sequence the writer can
actually emit, rather than for every accepted byte sequence. -/
theorem C1_directory_idempotence (E : List VPKEntryBlock_t)
    (hwf : ∀ b ∈ E, wfEntry b) :
    ∃ E2, parseVPKDir (serializeDir E) = some E2 ∧
      serializeDir E2 = serializeDir E := by
  refine ⟨flattenTree (parsedTree (buildTree E)),
    parseVPKDir_serializeDir E (wf_tree_hyp E hwf), ?_⟩
  have hbt := buildTree_parsedTree E hwf
  have hwt := writeTree_parsedTree E hwf
  simp only [serializeDir]
  rw [hbt, hwt]

/-- Witness for C1: a concrete one-entry directory (`"a/b.c"`, one
fragment) satisfies the hypothesis and the round trip. -/
theorem C1_directory_idempotence_witness :
    (∀ b ∈ [(⟨7, 0, 0, [], [⟨0, 0, 0, 1, 1⟩],
        [97, 47, 98, 46, 99]⟩ : VPKEntryBlock_t)], wfEntry b) ∧
    ∃ E2, parseVPKDir (serializeDir
        [(⟨7, 0, 0, [], [⟨0, 0, 0, 1, 1⟩],
          [97, 47, 98, 46, 99]⟩ : VPKEntryBlock_t)]) = some E2 ∧
      serializeDir E2 = serializeDir
        [(⟨7, 0, 0, [], [⟨0, 0, 0, 1, 1⟩],
          [97, 47, 98, 46, 99]⟩ : VPKEntryBlock_t)] :=
  ⟨by decide, C1_directory_idempotence _ (by decide)⟩

/-! ## Claim C7 -/

/-- C7: a directory whose 8-byte header prefix does not decode to
marker `0x55AA1234`, major version 2 and minor version 3 is rejected
by `Init` (modelled as a `none` parse, `m_bInitFailed`); in
particular, flipping any single byte of the marker/major/minor fields
of a freshly written directory to a different byte value makes the
parser fail. -/
theorem C7_header_validation :
    (∀ bs : List Nat, 8 ≤ bs.length →
      ¬ (leVal (bs.take 4) = VPK_HEADER_MARKER ∧
         leVal ((bs.drop 4).take 2) = VPK_MAJOR_VERSION ∧
         leVal ((bs.drop 6).take 2) = VPK_MINOR_VERSION) →
      parseVPKDir bs = none) ∧
    (∀ (E : List VPKEntryBlock_t) (i c : Nat), i < 8 → c < 256 →
      c ≠ (serializeDir E).getD i 0 →
      parseVPKDir ((serializeDir E).set i c) = none) := by
  constructor
  · intro bs h8 hbad
    exact parseVPKDir_badHeader bs h8 hbad
  · intro E i c hi hc256 hc
    obtain ⟨tl, hsd⟩ := serializeDir_head E
    rw [hsd] at hc ⊢
    interval_cases i <;>
      · simp only [List.set_cons_zero, List.set_cons_succ]
        simp only [List.getD_cons_zero, List.getD_cons_succ] at hc
        apply parseVPKDir_badHeader
        · simp only [List.length_cons]
          omega
        · intro htriple
          obtain ⟨h1, h2, h3⟩ := htriple
          simp only [List.take_succ_cons, List.take_zero,
            List.drop_succ_cons, List.drop_zero, leVal,
            VPK_HEADER_MARKER, VPK_MAJOR_VERSION, VPK_MINOR_VERSION]
            at h1 h2 h3
          omega

/-- Witness for C7: flipping the first marker byte of the empty
directory to 0 fails the parse, and a header of all-wrong bytes is
rejected. -/
theorem C7_header_validation_witness :
    parseVPKDir ((serializeDir []).set 0 0) = none ∧
    parseVPKDir [1, 2, 3, 4, 5, 6, 7, 8] = none :=
  ⟨C7_header_validation.2 [] 0 0 (by decide) (by decide) (by decide),
   C7_header_validation.1 [1, 2, 3, 4, 5, 6, 7, 8] (by decide)
     (by decide)⟩

/-! ## Claim C10 -/

theorem parse_header_zero (J : List Nat) :
    parseVPKDir (headerBytes ((0 :: J).length) ++ (0 :: J)) = some [] := by
  obtain ⟨hlen, hm, hj, hn, hd16⟩ :=
    headerBytes_fields ((0 :: J).length) (0 :: J)
  have hn8 : ¬ ((headerBytes ((0 :: J).length) ++ (0 :: J)).length < 8) := by
    rw [hlen]
    omega
  simp only [parseVPKDir]
  rw [if_neg hn8, if_pos ⟨hm, hj, hn⟩, hd16]
  have h := readStr_encode [] J (by simp)
  rw [List.nil_append] at h
  simp only [readExts]
  rw [h]
  simp only []
  rw [if_pos trivial]

/-- C10: an entry whose filename contains no `'.'` is grouped under
the empty extension string, which `std::map` sorts first; the writer
therefore emits the empty extension at the head of the tree, and the
reader — which stops at an empty extension string — parses the whole
directory as empty. -/
theorem C10_empty_extension (E : List VPKEntryBlock_t)
    (b : VPKEntryBlock_t) (hb : b ∈ E)
    (hext : (splitEntry b.m_EntryPath).ext = []) :
    (∃ pm rest, buildTree E = ([], pm) :: rest) ∧
    parseVPKDir (serializeDir E) = some [] := by
  obtain ⟨v, hv⟩ := buildTree_key_present E b hb
  rw [hext] at hv
  have hsort := (buildTree_sorted E).1
  have hhead : ∃ pm rest, buildTree E = ([], pm) :: rest := by
    cases ht : buildTree E with
    | nil =>
        rw [ht] at hv
        cases hv
    | cons g rest =>
        rw [ht] at hv hsort
        refine ⟨g.2, rest, ?_⟩
        have hg1 : g.1 = [] := by
          rcases List.mem_cons.mp hv with h | h
          · rw [← h]
          · exfalso
            have hx := (List.pairwise_cons.mp hsort).1 ([], v) h
            simp only [] at hx
            rw [bytesLt_nil_right] at hx
            exact Bool.false_ne_true hx
        obtain ⟨k, pm⟩ := g
        simp only [] at hg1
        rw [hg1]
  obtain ⟨pm, rest, hT⟩ := hhead
  refine ⟨⟨pm, rest, hT⟩, ?_⟩
  have hser : serializeDir E =
      headerBytes ((writeTree (buildTree E) ++ [0]).length) ++
        (writeTree (buildTree E) ++ [0]) := rfl
  have hbody0 : writeTree (buildTree E) ++ [0] =
      0 :: ((pm.map encodePathGroup).flatten ++
        ([0] ++ ((rest.map encodeExtGroup).flatten ++ ([0] ++ [0])))) := by
    rw [hT]
    simp [writeTree, encodeExtGroup, List.append_assoc]
  rw [hser, hbody0]
  exact parse_header_zero _

/-- Witness for C10: a one-entry directory whose path `"file"` has no
dot parses back as the empty directory. -/
theorem C10_empty_extension_witness :
    (∃ pm rest, buildTree
      [(⟨3, 0, 0, [], [⟨0, 0, 0, 1, 1⟩],
        [102, 105, 108, 101]⟩ : VPKEntryBlock_t)] = ([], pm) :: rest) ∧
    parseVPKDir (serializeDir
      [(⟨3, 0, 0, [], [⟨0, 0, 0, 1, 1⟩],
        [102, 105, 108, 101]⟩ : VPKEntryBlock_t)]) = some [] :=
  C10_empty_extension
    [(⟨3, 0, 0, [], [⟨0, 0, 0, 1, 1⟩],
      [102, 105, 108, 101]⟩ : VPKEntryBlock_t)]
    (⟨3, 0, 0, [], [⟨0, 0, 0, 1, 1⟩],
      [102, 105, 108, 101]⟩ : VPKEntryBlock_t)
    (by decide) (by decide)

end RevpkModel
